import Mathlib

/-!
# Verification of the mmult microbenchmark

A shallow embedding of the matrix-multiply microbenchmark
(`src/mmult/impl/ref.c`, `src/mmult/impl/opt.c`, `src/mmult/main.c`,
`src/mmult/include/types.h`) together with proofs about the embedded
program.

Memory buffers are embedded as total functions `Nat → α` from element
offsets to element contents; a C store `p[i] = v` becomes a pointwise
functional update.  `ref.c` reinterprets the 4-byte elements as 32-bit
two's-complement integers (it `memcpy`s them into `int`), so its buffers
are embedded at the bit level (`Nat` bit patterns, arithmetic mod 2^32,
where two's-complement wraparound agrees with unsigned wraparound).
`opt.c` operates on the elements as `float`; its arithmetic is embedded
over `ℚ`, which models the claims' "exact (real/rational) arithmetic"
reading of the kernel and is exact for the small integral test values
used in the concrete theorems below.  The statistics loop of `main.c`
works on `uint64_t`, embedded as `Nat` with explicit `% 2^64`.
-/

/-- Pointwise store: the effect of the C assignment `buf[i] = v` on a
buffer embedded as a function from element offsets to contents. -/
def wr {α : Type _} (d : Nat → α) (i : Nat) (v : α) : Nat → α :=
  fun x => if x = i then v else d x

/-- A generic loop body shape shared by both kernels: a list of loop
items is processed in order, and each item reads the single cell it is
about to write (`upd it` maps that cell's current contents to its new
contents) and stores the result back.  Both kernels' loop nests are
proved equal to `applyUpds` over their flattened iteration sequence. -/
def applyUpds {β : Type _} {α : Type _} (addr : β → Nat) (upd : β → α → α)
    (items : List β) (d : Nat → α) : Nat → α :=
  items.foldl (fun d it => wr d (addr it) (upd it (d (addr it)))) d

/-- `args_t` from `src/mmult/include/types.h` (lines 12-25): the argument
struct handed to every kernel.  The three buffer pointers become
functions from element offsets to elements; the element type is a
parameter because `ref.c` reinterprets the buffers as `int` (embedded as
`Nat` bit patterns) while `opt.c` uses them as `float` (embedded as `ℚ`). -/
structure args_t (α : Type _) where
  input_a : Nat → α
  input_b : Nat → α
  output : Nat → α
  rowsA : Nat
  colsA : Nat
  colsB : Nat
  size : Nat
  cpu : Int
  nthreads : Int

/-- 2^32, the modulus of 32-bit `int` arithmetic in `ref.c`. -/
def U32 : Nat := 2 ^ 32

/-- 32-bit wraparound addition (`sum += ...` on `int` in `ref.c`;
two's-complement wraparound coincides with unsigned mod 2^32 on the
bit patterns). -/
def add32 (a b : Nat) : Nat := (a + b) % U32

/-- 32-bit wraparound multiplication (`a_element * b_element` on `int`
in `ref.c`). -/
def mul32 (a b : Nat) : Nat := (a * b) % U32

/-- The inner `k` loop of `impl_ref` (`ref.c` lines 40-49): starting
from `int sum = 0`, accumulate `sum += a_element * b_element` where the
elements are the 4-byte patterns at offsets `i*colsA + k` of A and
`k*colsB + j` of B, read as 32-bit integers. -/
def refCell (matA matB : Nat → Nat) (colsA colsB i j : Nat) : Nat :=
  (List.range colsA).foldl
    (fun sum k => add32 sum (mul32 (matA (i * colsA + k)) (matB (k * colsB + j)))) 0

/-- The `(i, j)` loop nest of `impl_ref` (`ref.c` lines 37-52): for each
`i < rowsA`, `j < colsB`, store the accumulated `sum` at offset
`i*colsB + j` of the destination. -/
def refDest (matA matB : Nat → Nat) (rowsA colsA colsB : Nat) (dest : Nat → Nat) :
    Nat → Nat :=
  (List.range rowsA).foldl
    (fun d i =>
      (List.range colsB).foldl
        (fun d j => wr d (i * colsB + j) (refCell matA matB colsA colsB i j)) d)
    dest

/-- `impl_ref` from `src/mmult/impl/ref.c` (lines 23-56): unpacks the
argument struct and runs the naive triple loop.  The kernel stores only
through `dest`; `matA` and `matB` are read-only, so the returned state
carries them through unchanged. -/
def impl_ref (args : args_t Nat) : args_t Nat :=
  { args with
    output := refDest args.input_a args.input_b args.rowsA args.colsA args.colsB
      args.output }

/-- The ordered sequence of stores `(offset, value)` performed by
`impl_ref`'s loop nest: one store per `(i, j)` iteration, in loop order,
writing the fully accumulated `sum` (`ref.c` line 51).  Proved below
(`refDest_eq_trace`) to reproduce `refDest` when replayed in order. -/
def refWriteTrace (matA matB : Nat → Nat) (rowsA colsA colsB : Nat) :
    List (Nat × Nat) :=
  (List.range rowsA).flatMap
    (fun i =>
      (List.range colsB).map
        (fun j => (i * colsB + j, refCell matA matB colsA colsB i j)))

/-- `BLOCK_SIZE` from `opt.c` line 52. -/
def BLOCK_SIZE : Nat := 16

/-- The iteration values of a C loop `for (x = 0; x < n; x += BLOCK_SIZE)`:
the multiples of `BLOCK_SIZE` below `n` (`opt.c` lines 54-56). -/
def blockStarts (n : Nat) : List Nat :=
  (List.range ((n + BLOCK_SIZE - 1) / BLOCK_SIZE)).map (fun q => q * BLOCK_SIZE)

/-- The innermost `k` loop of `impl_mmult_opt` (`opt.c` lines 59-61):
starting from `val` (the output cell's current contents), accumulate
`val += matA[i*colsA + k] * matB[k*colsB + j]` for
`k = kk .. min(kk + BLOCK_SIZE, colsA) - 1`. -/
def optBlockVal (matA matB : Nat → ℚ) (colsA colsB i j kk : Nat) (val : ℚ) : ℚ :=
  (List.range' kk (min (kk + BLOCK_SIZE) colsA - kk)).foldl
    (fun val k => val + matA (i * colsA + k) * matB (k * colsB + j)) val

/-- The initialization phase of `impl_mmult_opt` (`opt.c` lines 44-48):
`dest[i*colsB + j] = 0.0f` for every `i < rowsA`, `j < colsB`. -/
def optInit (rowsA colsB : Nat) (dest : Nat → ℚ) : Nat → ℚ :=
  (List.range rowsA).foldl
    (fun d i =>
      (List.range colsB).foldl (fun d j => wr d (i * colsB + j) 0) d)
    dest

/-- The blocked compute phase of `impl_mmult_opt` (`opt.c` lines 54-67):
tiles in `(ii, jj, kk)` order, elements in `(i, j)` order within the
tile; each `(i, j)` iteration loads `dest[i*colsB + j]`, accumulates the
tile's `k` range into it, and stores it back.  Tile bounds are clamped
with `min`. -/
def optCompute (matA matB : Nat → ℚ) (rowsA colsA colsB : Nat) (dest : Nat → ℚ) :
    Nat → ℚ :=
  (blockStarts rowsA).foldl
    (fun d ii =>
      (blockStarts colsB).foldl
        (fun d jj =>
          (blockStarts colsA).foldl
            (fun d kk =>
              (List.range' ii (min (ii + BLOCK_SIZE) rowsA - ii)).foldl
                (fun d i =>
                  (List.range' jj (min (jj + BLOCK_SIZE) colsB - jj)).foldl
                    (fun d j =>
                      wr d (i * colsB + j)
                        (optBlockVal matA matB colsA colsB i j kk (d (i * colsB + j))))
                    d)
                d)
            d)
        d)
    dest

/-- `impl_mmult_opt` from `src/mmult/impl/opt.c` (lines 30-70): zero
initialization of the destination followed by the cache-blocked
multiply.  Only `dest` is stored to. -/
def impl_mmult_opt (args : args_t ℚ) : args_t ℚ :=
  { args with
    output := optCompute args.input_a args.input_b args.rowsA args.colsA args.colsB
      (optInit args.rowsA args.colsB args.output) }

/-- The flattened iteration sequence of `impl_ref`'s store loop: the
`(i, j)` pairs in loop order. -/
def refItems (rowsA colsB : Nat) : List (Nat × Nat) :=
  (List.range rowsA).flatMap (fun i => (List.range colsB).map (fun j => (i, j)))

/-- The flattened iteration sequence of `impl_mmult_opt`'s compute
phase: the `(kk, i, j)` triples in loop order (`ii` and `jj` only
delimit which `(i, j)` cells each pass touches). -/
def optItems (rowsA colsA colsB : Nat) : List (Nat × Nat × Nat) :=
  (blockStarts rowsA).flatMap
    (fun ii =>
      (blockStarts colsB).flatMap
        (fun jj =>
          (blockStarts colsA).flatMap
            (fun kk =>
              (List.range' ii (min (ii + BLOCK_SIZE) rowsA - ii)).flatMap
                (fun i =>
                  (List.range' jj (min (jj + BLOCK_SIZE) colsB - jj)).map
                    (fun j => (kk, i, j))))))

/-- `2^z` as a rational, for decoding IEEE-754 exponents. -/
def pow2 (z : Int) : ℚ :=
  if 0 ≤ z then ((2 ^ z.toNat : Nat) : ℚ) else 1 / ((2 ^ (-z).toNat : Nat) : ℚ)

/-- The exact rational value of an IEEE-754 binary32 bit pattern
(`none` for infinities and NaNs, i.e. exponent field 255).  Used to
relate `ref.c`'s bit-level outputs to the float values the spec's
contract is stated over. -/
def f32val (bits : Nat) : Option ℚ :=
  let s : Nat := bits / 2 ^ 31 % 2
  let e : Nat := bits / 2 ^ 23 % 2 ^ 8
  let m : Nat := bits % 2 ^ 23
  if e = 255 then none
  else
    let mag : ℚ :=
      if e = 0 then ((m : ℚ) / ((2 ^ 23 : Nat) : ℚ)) * pow2 (-126)
      else (1 + (m : ℚ) / ((2 ^ 23 : Nat) : ℚ)) * pow2 ((e : Int) - 127)
    some (if s = 1 then -mag else mag)

/-- The guard sentinel `0xdeadcafe` (`main.c` line 262). -/
def guardSentinel : Nat := 0xdeadcafe

/-- Modelled from the spec: `__SET_FLOAT_GUARD` from `common/macros.h`,
which is not under `src/`.  Per spec §3 (OutputBuffer) and `main.c`
lines 262-265, it writes the sentinel into the 4 guard cells trailing
the logical region of `size` elements. -/
def setFloatGuard {α : Type _} (sentinel : α) (buf : Nat → α) (size : Nat) :
    Nat → α :=
  fun idx => if size ≤ idx ∧ idx < size + 4 then sentinel else buf idx

/-- Modelled from the spec: `__CHECK_FLOAT_GUARD` from `common/macros.h`,
which is not under `src/`.  Per spec §4.4, it "returns true only if
every guard cell still equals the sentinel bit pattern written before
the run began". -/
def checkFloatGuard {α : Type _} [DecidableEq α] (sentinel : α) (buf : Nat → α)
    (size : Nat) : Bool :=
  (List.range 4).all (fun t => buf (size + t) = sentinel)

/-- The verification report of `main.c` lines 316-324: which of the four
messages is printed for a given `(match, guard)` pair. -/
def verifyMessage (matched guard : Bool) : String :=
  if matched && guard then "Success"
  else if !matched && guard then "Fail, but no buffer overruns"
  else if matched && !guard then "Success, but failed buffer overruns check"
  else "Failed, and failed buffer overruns check"

/-- 2^64, the modulus of `uint64_t` arithmetic in `main.c`'s statistics
loop. -/
def U64 : Nat := 2 ^ 64

/-- `uint64_t` addition. -/
def add64 (a b : Nat) : Nat := (a + b) % U64

/-- `uint64_t` multiplication. -/
def mul64 (a b : Nat) : Nat := (a * b) % U64

/-- `uint64_t` subtraction `a - b` (two's-complement wraparound), for
operands below 2^64. -/
def sub64 (a b : Nat) : Nat := (a + U64 - b) % U64

/-- Truncating integer square root (structurally recursive scan from
`k` downward); `isqrtDown n n` equals `Nat.sqrt n` (proved below).
Models `std = sqrt(std / std_n)` in `main.c` line 375, where the C
`double` square root of an exact integer is truncated back to
`uint64_t`; the model is the exact integer square root, which agrees
with the C computation whenever the argument is small enough (< 2^52)
for the `double` conversions to be exact. -/
def isqrtDown (n : Nat) : Nat → Nat
  | 0 => 0
  | k + 1 => if (k + 1) * (k + 1) ≤ n then k + 1 else isqrtDown n k

/-- Integer square root used by the statistics embedding. -/
def isqrt (n : Nat) : Nat := isqrtDown n n

/-- The rejection test of `main.c` lines 381-391: an active sample `x`
is masked off when its deviation from `avg` (computed with the
wraparound-safe branch on `x > avg`) strictly exceeds `nstd * std`. -/
def maskedOff (avg std nstd x : Nat) : Bool :=
  if x > avg then
    if x - avg > nstd * std then true else false
  else
    if avg - x > nstd * std then true else false

/-- The outcome of one pass of the statistics `do`/`while` loop
(`main.c` lines 343-399). -/
structure PassResult where
  mask : List Bool
  avg : Nat
  avgN : Nat
  std : Nat
  stdN : Nat
  nMsked : Nat
deriving DecidableEq

/-- One pass of the statistics loop body (`main.c` lines 344-393): the
runtimes array with its mask is traversed in index order (embedded as a
traversal of `runtimes.zip mask`); the pass sums the active samples and
divides by their count (`avg = avg / avg_n`, `uint64_t` integer
division), accumulates the squared wraparound deviations and takes the
truncated square root of their quotient, then masks off every active
sample whose deviation strictly exceeds `nstd * std`.  Division by a
zero active count is undefined behavior in the C program; the embedding
inherits Lean's `x / 0 = 0`. -/
def statsPass (runtimes : List Nat) (mask : List Bool) (nstd : Nat) : PassResult :=
  let pairs := runtimes.zip mask
  let avgN := (pairs.filter (fun p => p.2)).length
  let avgSum := pairs.foldl (fun s p => if p.2 then add64 s p.1 else s) 0
  let avg := avgSum / avgN
  let stdN := (pairs.filter (fun p => p.2)).length
  let stdSum := pairs.foldl
    (fun s p => if p.2 then add64 s (mul64 (sub64 p.1 avg) (sub64 p.1 avg)) else s) 0
  let std := isqrt (stdSum / stdN)
  let newMask := pairs.map (fun p => if p.2 then !maskedOff avg std nstd p.1 else false)
  let nMsked := (pairs.filter (fun p => p.2 && maskedOff avg std nstd p.1)).length
  ⟨newMask, avg, avgN, std, stdN, nMsked⟩

/-- The final state of the statistics loop: the mask, the last pass's
average, active count and standard deviation, and the number of passes
(`n_stats`). -/
structure StatsResult where
  mask : List Bool
  avg : Nat
  avgN : Nat
  std : Nat
  nStats : Nat
deriving DecidableEq

/-- The `do`/`while (n_msked > 0)` loop of `main.c` lines 343-399,
driven by explicit fuel (the loop terminates because every repeated
pass masks at least one sample; `runtimes.length + 1` passes always
suffice, proved below). -/
def statsLoop (runtimes : List Nat) (nstd : Nat) :
    Nat → List Bool → Nat → StatsResult
  | 0, mask, nStats => ⟨mask, 0, 0, 0, nStats⟩
  | fuel + 1, mask, nStats =>
    let p := statsPass runtimes mask nstd
    if 0 < p.nMsked then statsLoop runtimes nstd fuel p.mask (nStats + 1)
    else ⟨p.mask, p.avg, p.avgN, p.std, nStats + 1⟩

/-- The whole outlier-statistics procedure of `main.c` lines 339-399:
all samples start active (`runtimes_mask[i] = true`, lines 339-340) and
passes repeat until one masks nothing. -/
def outlierStats (runtimes : List Nat) (nstd : Nat) : StatsResult :=
  statsLoop runtimes nstd (runtimes.length + 1) (List.replicate runtimes.length true) 0

/-- The values of the currently active samples, in sample order. -/
def activeVals (runtimes : List Nat) (mask : List Bool) : List Nat :=
  ((runtimes.zip mask).filter (fun p => p.2)).map (fun p => p.1)

/-- Absolute deviation `|x - μ|` over exact integers. -/
def intDev (avg x : Nat) : Nat := ((x : Int) - (avg : Int)).natAbs

/-- One pass as the amended claim describes it, over exact integer
arithmetic: `μ = ⌊Σx/n⌋` over the active samples,
`σ = ⌊√(⌊Σ|x-μ|²/n⌋)⌋`, and every active sample with `|x-μ| > k·σ` is
masked off.  Written independently of `statsPass` (exact sums and
absolute values instead of wraparound arithmetic and branches); the two
are proved to coincide when the samples are small enough that no 64-bit
sum wraps. -/
def specPass (runtimes : List Nat) (mask : List Bool) (nstd : Nat) : PassResult :=
  let pairs := runtimes.zip mask
  let act := activeVals runtimes mask
  let avg := act.sum / act.length
  let std := Nat.sqrt ((act.map (fun x => intDev avg x * intDev avg x)).sum / act.length)
  let newMask := pairs.map (fun p => if p.2 then decide (intDev avg p.1 ≤ nstd * std) else false)
  let nMsked := (pairs.filter (fun p => p.2 && decide (intDev avg p.1 > nstd * std))).length
  ⟨newMask, avg, act.length, std, act.length, nMsked⟩

/-- The amended claim's loop: iterate `specPass` to a fixed point. -/
def specLoop (runtimes : List Nat) (nstd : Nat) :
    Nat → List Bool → Nat → StatsResult
  | 0, mask, nStats => ⟨mask, 0, 0, 0, nStats⟩
  | fuel + 1, mask, nStats =>
    let p := specPass runtimes mask nstd
    if 0 < p.nMsked then specLoop runtimes nstd fuel p.mask (nStats + 1)
    else ⟨p.mask, p.avg, p.avgN, p.std, nStats + 1⟩

/-- The amended claim's outlier-statistics procedure. -/
def outlierSpec (runtimes : List Nat) (nstd : Nat) : StatsResult :=
  specLoop runtimes nstd (runtimes.length + 1) (List.replicate runtimes.length true) 0

/-- The mean over `ℚ`, as claim C4 states it ("arithmetic mean"). -/
def ratMean (l : List Nat) : ℚ :=
  (l.map (fun (x : Nat) => (x : ℚ))).sum / (l.length : ℚ)

/-- The population variance `σ² = Σ(x-μ)²/n` over `ℚ`.  Claim C4's
masking test `|x-μ| > k·σ` with `σ = √(σ²)` is expressed below through
the equivalent squared comparison `(x-μ)² > k²·σ²` (both sides are
nonnegative), which keeps the computation inside `ℚ`. -/
def ratVar (l : List Nat) (mean : ℚ) : ℚ :=
  (l.map (fun (x : Nat) => ((x : ℚ) - mean) ^ 2)).sum / (l.length : ℚ)

/-- The outcome of one pass of claim C4's procedure over exact reals. -/
structure RatPassResult where
  mask : List Bool
  avg : ℚ
  avgN : Nat
  nMsked : Nat

/-- One pass exactly as claim C4 states it, over exact real (here
rational) arithmetic: compute `μ` and `σ` over the `n` active samples
and mask every active sample with `|x-μ| > k·σ`.  Because both sides
are nonnegative, the test is equivalent to `(x-μ)² > k²·σ²`, and
multiplying through by `n² > 0` gives the integer test
`(n·x - S)² > k²·(n·Q - S²)` with `S = Σx` and `Q = Σx²` over the
active samples (note `n·Q - S² = n²σ²`); that equivalence is proved
as `ratPass_mask_test` below.  The reported mean is the exact rational
`μ`. -/
def ratPass (runtimes : List Nat) (mask : List Bool) (nstd : Nat) : RatPassResult :=
  let pairs := runtimes.zip mask
  let act := activeVals runtimes mask
  let n : Int := act.length
  let s : Int := (act.map (fun (x : Nat) => (x : Int))).sum
  let q : Int := (act.map (fun (x : Nat) => (x : Int) * x)).sum
  let avg := ratMean act
  let newMask := pairs.map (fun p =>
    if p.2 then decide ((n * p.1 - s) ^ 2 ≤ (nstd : Int) ^ 2 * (n * q - s ^ 2)) else false)
  let nMsked := (pairs.filter (fun p =>
    p.2 && decide ((n * p.1 - s) ^ 2 > (nstd : Int) ^ 2 * (n * q - s ^ 2)))).length
  ⟨newMask, avg, act.length, nMsked⟩

/-- The final state of claim C4's procedure over exact reals. -/
structure RatStatsResult where
  mask : List Bool
  avg : ℚ
  avgN : Nat
  nStats : Nat

/-- Claim C4's loop over exact reals: repeat until a pass masks no new
sample, then report the final `μ` over the still-active samples. -/
def ratLoop (runtimes : List Nat) (nstd : Nat) :
    Nat → List Bool → Nat → RatStatsResult
  | 0, mask, nStats => ⟨mask, 0, 0, nStats⟩
  | fuel + 1, mask, nStats =>
    let p := ratPass runtimes mask nstd
    if 0 < p.nMsked then ratLoop runtimes nstd fuel p.mask (nStats + 1)
    else ⟨p.mask, p.avg, p.avgN, nStats + 1⟩

/-- Claim C4's whole procedure over exact reals. -/
def outlierRat (runtimes : List Nat) (nstd : Nat) : RatStatsResult :=
  ratLoop runtimes nstd (runtimes.length + 1) (List.replicate runtimes.length true) 0

/-- The two selectable kernels (`main.c` lines 83-84). -/
inductive ImplKind where
  | naive : ImplKind
  | opt : ImplKind
deriving DecidableEq

/-- The configuration state built by `main.c`'s argument loop (lines
61-163): the chosen kernel function pointer (`none` when NULL), the
`impl_str` label, the help flag, and the raw value strings of the
numeric options (their `atoi` conversion plays no role in kernel
selection). -/
structure Config where
  impl : Option ImplKind
  implStr : Option String
  help : Bool
  arows : Option String
  acbr : Option String
  bcols : Option String
  nruns : Option String
  nstdevs : Option String
  nthreads : Option String
  cpu : Option String
deriving DecidableEq

/-- The initial configuration (`main.c` lines 87-90 and defaults). -/
def initialConfig : Config :=
  ⟨none, none, false, none, none, none, none, none, none, none⟩

/-- The argument loop of `main.c` lines 91-163 over the arguments after
`argv[0]`.  Every value-taking flag consumes the following argument
(`assert(++i < argc)`; a missing value aborts the program, embedded as
`none`); unrecognized arguments are skipped.  An unknown `--impl` value
sets the kernel pointer to NULL and the label to `"unknown"`
(lines 99-101). -/
def parseArgs : List String → Config → Option Config
  | [], c => some c
  | arg :: rest, c =>
    if arg = "-i" ∨ arg = "--impl" then
      match rest with
      | [] => none
      | v :: rest' =>
        parseArgs rest'
          (if v = "naive" then { c with impl := some ImplKind.naive, implStr := some "mmult_naive" }
           else if v = "opt" then { c with impl := some ImplKind.opt, implStr := some "mmult_opt" }
           else { c with impl := none, implStr := some "unknown" })
    else if arg = "-ar" ∨ arg = "--arows" then
      match rest with
      | [] => none
      | v :: rest' => parseArgs rest' { c with arows := some v }
    else if arg = "-acbr" ∨ arg = "--acolsnbrows" then
      match rest with
      | [] => none
      | v :: rest' => parseArgs rest' { c with acbr := some v }
    else if arg = "-bc" ∨ arg = "--bcols" then
      match rest with
      | [] => none
      | v :: rest' => parseArgs rest' { c with bcols := some v }
    else if arg = "--nruns" then
      match rest with
      | [] => none
      | v :: rest' => parseArgs rest' { c with nruns := some v }
    else if arg = "--nstdevs" then
      match rest with
      | [] => none
      | v :: rest' => parseArgs rest' { c with nstdevs := some v }
    else if arg = "-n" ∨ arg = "--nthreads" then
      match rest with
      | [] => none
      | v :: rest' => parseArgs rest' { c with nthreads := some v }
    else if arg = "-c" ∨ arg = "--cpu" then
      match rest with
      | [] => none
      | v :: rest' => parseArgs rest' { c with cpu := some v }
    else if arg = "-h" ∨ arg = "--help" then
      parseArgs rest { c with help := true }
    else
      parseArgs rest c

/-- What `main` does right after argument parsing (`main.c` lines
165-194): abort on a failed assert; otherwise, if help was requested or
no kernel is selected, print the error message (only when help was not
requested) and the usage text, then exit with status `help ? 0 : 1`;
otherwise fall through and run the benchmark with the chosen kernel. -/
inductive Outcome where
  | assertFailure : Outcome
  | exited : Nat → Option String → Outcome
  | ran : ImplKind → String → Outcome
deriving DecidableEq

/-- The kernel-selection behavior of `main.c` (lines 91-194 and 301-309):
parse the arguments, then either exit (with the printed error message,
if any) before any kernel invocation, or proceed to the timed runs of
the selected kernel. -/
def mainOutcome (argv : List String) : Outcome :=
  match parseArgs argv initialConfig with
  | none => Outcome.assertFailure
  | some c =>
    if c.help ∨ c.impl = none then
      Outcome.exited (if c.help then 0 else 1)
        (if c.help then none
         else
           match c.implStr with
           | some s => some ("ERROR: Unknown \"" ++ s ++ "\" implementation.")
           | none => some "ERROR: No implementation was chosen.")
    else
      match c.impl with
      | some k => Outcome.ran k (c.implStr.getD "")
      | none => Outcome.assertFailure

/-! ## Generic machinery about `applyUpds` and loop flattening -/

theorem applyUpds_append {β α : Type _} (addr : β → Nat) (upd : β → α → α)
    (l₁ l₂ : List β) (d : Nat → α) :
    applyUpds addr upd (l₁ ++ l₂) d = applyUpds addr upd l₂ (applyUpds addr upd l₁ d) := by
  simp [applyUpds, List.foldl_append]

/-- Reading one cell after a sequence of independent cell updates: only
the items addressed at that cell contribute, in order, starting from the
cell's initial contents. -/
theorem applyUpds_read {β α : Type _} (addr : β → Nat) (upd : β → α → α)
    (items : List β) (d : Nat → α) (x : Nat) :
    applyUpds addr upd items d x =
      (items.filter (fun it => addr it == x)).foldl (fun v it => upd it v) (d x) := by
  induction items generalizing d with
  | nil => rfl
  | cons it rest ih =>
    show applyUpds addr upd rest (wr d (addr it) (upd it (d (addr it)))) x = _
    rw [ih]
    by_cases h : addr it = x
    · subst h
      have hp : (addr it == addr it) = true := by simp
      simp only [List.filter_cons, hp, if_true, List.foldl_cons]
      have hwr : wr d (addr it) (upd it (d (addr it))) (addr it) = upd it (d (addr it)) := by
        simp [wr]
      rw [hwr]
    · have hp : (addr it == x) = false := by simp [h]
      simp only [List.filter_cons, hp, Bool.false_eq_true, if_false]
      have hne : ¬ x = addr it := fun hx => h hx.symm
      have hwr : wr d (addr it) (upd it (d (addr it))) x = d x := by simp [wr, hne]
      rw [hwr]

/-- A loop writing one cell per item, flattened to `applyUpds`. -/
theorem foldl_wr_map {γ β α : Type _} (addr : β → Nat) (upd : β → α → α)
    (g : γ → β) (l : List γ) (d : Nat → α) :
    l.foldl (fun d x => wr d (addr (g x)) (upd (g x) (d (addr (g x))))) d
      = applyUpds addr upd (l.map g) d := by
  induction l generalizing d with
  | nil => rfl
  | cons x xs ih => exact ih (wr d (addr (g x)) (upd (g x) (d (addr (g x)))))

/-- A loop of `applyUpds` bodies, flattened to a single `applyUpds`. -/
theorem foldl_applyUpds_flatMap {γ β α : Type _} (addr : β → Nat) (upd : β → α → α)
    (f : γ → List β) (l : List γ) (d : Nat → α) :
    l.foldl (fun d x => applyUpds addr upd (f x) d) d = applyUpds addr upd (l.flatMap f) d := by
  induction l generalizing d with
  | nil => rfl
  | cons x xs ih => simp [List.flatMap_cons, applyUpds_append, ← ih]

theorem foldl_congr' {α β : Type _} (l : List α) (f g : β → α → β) (v : β)
    (h : ∀ x ∈ l, ∀ acc, f acc x = g acc x) : l.foldl f v = l.foldl g v := by
  induction l generalizing v with
  | nil => rfl
  | cons x xs ih =>
    simp only [List.foldl_cons]
    rw [h x (by simp)]
    exact ih _ (fun y hy acc => h y (by simp [hy]) acc)

/-- Updates that agree on every item yield the same memory. -/
theorem applyUpds_congr {β α : Type _} (addr : β → Nat) (upd upd' : β → α → α)
    (items : List β) (d : Nat → α)
    (h : ∀ it ∈ items, ∀ v, upd it v = upd' it v) :
    applyUpds addr upd items d = applyUpds addr upd' items d := by
  induction items generalizing d with
  | nil => rfl
  | cons it rest ih =>
    show applyUpds addr upd rest (wr d (addr it) (upd it (d (addr it)))) =
      applyUpds addr upd' rest (wr d (addr it) (upd' it (d (addr it))))
    rw [h it (by simp)]
    exact ih _ (fun y hy v => h y (by simp [hy]) v)

theorem flatMap_eq_nil {γ β : Type _} (l : List γ) (f : γ → List β)
    (h : ∀ x ∈ l, f x = []) : l.flatMap f = [] := by
  induction l with
  | nil => rfl
  | cons x xs ih =>
    simp [List.flatMap_cons, h x (by simp), ih (fun y hy => h y (by simp [hy]))]

theorem flatMap_map_singleton {γ β : Type _} (l : List γ) (g : γ → β) :
    l.flatMap (fun x => [g x]) = l.map g := by
  induction l with
  | nil => rfl
  | cons x xs ih => simp [List.flatMap_cons, ih]

/-- A `flatMap` whose pieces are all empty except possibly at one item. -/
theorem flatMap_eq_single {γ β : Type _} [DecidableEq γ] (l : List γ) (f : γ → List β)
    (t : γ) (hnd : l.Nodup) (h : ∀ x ∈ l, x ≠ t → f x = []) :
    l.flatMap f = if t ∈ l then f t else [] := by
  induction l with
  | nil => simp
  | cons x xs ih =>
    rcases List.nodup_cons.mp hnd with ⟨hx, hnd'⟩
    by_cases hxt : x = t
    · subst hxt
      have hrest : xs.flatMap f = [] :=
        flatMap_eq_nil xs f (fun y hy => h y (by simp [hy]) (fun hyx => hx (hyx ▸ hy)))
      simp [List.flatMap_cons, hrest]
    · have hfx : f x = [] := h x (by simp) hxt
      rw [List.flatMap_cons, hfx, List.nil_append,
        ih hnd' (fun y hy hyt => h y (by simp [hy]) hyt)]
      by_cases hmem : t ∈ xs
      · rw [if_pos hmem, if_pos (List.mem_cons_of_mem x hmem)]
      · rw [if_neg hmem, if_neg (fun hc => by
          rcases List.mem_cons.mp hc with h' | h'
          · exact hxt h'.symm
          · exact hmem h')]

/-- Filtering a mapped list by a predicate that selects exactly one
source item. -/
theorem filter_map_eq_single {γ β : Type _} [DecidableEq γ] (l : List γ) (g : γ → β)
    (p : β → Bool) (t : γ) (hnd : l.Nodup)
    (hiff : ∀ x ∈ l, p (g x) = true ↔ x = t) :
    (l.map g).filter p = if t ∈ l then [g t] else [] := by
  induction l with
  | nil => simp
  | cons x xs ih =>
    rcases List.nodup_cons.mp hnd with ⟨hx, hnd'⟩
    by_cases hxt : x = t
    · subst hxt
      have hp : p (g x) = true := (hiff x (by simp)).mpr rfl
      have hrest : (xs.map g).filter p = [] := by
        rw [List.filter_eq_nil_iff]
        intro a ha
        rcases List.mem_map.mp ha with ⟨y, hy, rfl⟩
        intro hpa
        exact hx (((hiff y (by simp [hy])).mp hpa) ▸ hy)
      simp [List.map_cons, List.filter_cons, hp, hrest]
    · have hp : p (g x) = false := by
        by_cases hpx : p (g x) = true
        · exact absurd ((hiff x (by simp)).mp hpx) hxt
        · simpa using hpx
      rw [List.map_cons, List.filter_cons, hp]
      simp only [Bool.false_eq_true, if_false]
      rw [ih hnd' (fun y hy => hiff y (by simp [hy]))]
      by_cases hmem : t ∈ xs
      · rw [if_pos hmem, if_pos (List.mem_cons_of_mem x hmem)]
      · rw [if_neg hmem, if_neg (fun hc => by
          rcases List.mem_cons.mp hc with h' | h'
          · exact hxt h'.symm
          · exact hmem h')]

/-- Row-major flattening is injective on in-bounds column indices. -/
theorem rowmajor_inj {i i' j j' c : Nat} (hj : j < c) (hj' : j' < c)
    (h : i * c + j = i' * c + j') : i = i' ∧ j = j' := by
  have hc : 0 < c := by omega
  have hi : i = i' := by
    have h1 : (i * c + j) / c = i := by
      rw [Nat.mul_comm i c, Nat.mul_add_div hc, Nat.div_eq_of_lt hj]
      omega
    have h2 : (i' * c + j') / c = i' := by
      rw [Nat.mul_comm i' c, Nat.mul_add_div hc, Nat.div_eq_of_lt hj']
      omega
    rw [← h1, ← h2, h]
  refine ⟨hi, ?_⟩
  subst hi
  exact Nat.add_left_cancel h

/-- Row-major in-bounds indices stay below `rows*cols`. -/
theorem rowmajor_lt {i j r c : Nat} (hi : i < r) (hj : j < c) : i * c + j < r * c := by
  calc i * c + j < i * c + c := Nat.add_lt_add_left hj (i * c)
  _ = (i + 1) * c := by ring
  _ ≤ r * c := Nat.mul_le_mul_right c hi

/-! ## Flattening the kernels' loop nests -/

theorem refDest_eq (a b : Nat → Nat) (rA cA cB : Nat) (d : Nat → Nat) :
    refDest a b rA cA cB d =
      applyUpds (fun p => p.1 * cB + p.2) (fun p _ => refCell a b cA cB p.1 p.2)
        (refItems rA cB) d := by
  unfold refDest refItems
  rw [← foldl_applyUpds_flatMap]
  exact foldl_congr' _ _ _ _
    (fun i _ acc => foldl_wr_map (fun p => p.1 * cB + p.2)
      (fun p _ => refCell a b cA cB p.1 p.2) (fun j => (i, j)) (List.range cB) acc)

theorem optInit_eq (rA cB : Nat) (d : Nat → ℚ) :
    optInit rA cB d =
      applyUpds (fun p => p.1 * cB + p.2) (fun _ _ => (0 : ℚ)) (refItems rA cB) d := by
  unfold optInit refItems
  rw [← foldl_applyUpds_flatMap]
  exact foldl_congr' _ _ _ _
    (fun i _ acc => foldl_wr_map (fun p => p.1 * cB + p.2)
      (fun _ _ => (0 : ℚ)) (fun j => (i, j)) (List.range cB) acc)

theorem optCompute_eq (a b : Nat → ℚ) (rA cA cB : Nat) (d : Nat → ℚ) :
    optCompute a b rA cA cB d =
      applyUpds (fun t => t.2.1 * cB + t.2.2)
        (fun t v => optBlockVal a b cA cB t.2.1 t.2.2 t.1 v)
        (optItems rA cA cB) d := by
  have h2 : ∀ (kk ii jj : Nat) (d : Nat → ℚ),
      (List.range' ii (min (ii + BLOCK_SIZE) rA - ii)).foldl
        (fun d i =>
          (List.range' jj (min (jj + BLOCK_SIZE) cB - jj)).foldl
            (fun d j => wr d (i * cB + j)
              (optBlockVal a b cA cB i j kk (d (i * cB + j)))) d) d
      = applyUpds (fun t => t.2.1 * cB + t.2.2)
          (fun t v => optBlockVal a b cA cB t.2.1 t.2.2 t.1 v)
          ((List.range' ii (min (ii + BLOCK_SIZE) rA - ii)).flatMap
            (fun i => (List.range' jj (min (jj + BLOCK_SIZE) cB - jj)).map
              (fun j => (kk, i, j)))) d := by
    intro kk ii jj d
    rw [← foldl_applyUpds_flatMap]
    exact foldl_congr' _ _ _ _
      (fun i _ acc => foldl_wr_map (fun t => t.2.1 * cB + t.2.2)
        (fun t v => optBlockVal a b cA cB t.2.1 t.2.2 t.1 v)
        (fun j => (kk, i, j)) _ acc)
  have h3 : ∀ (ii jj : Nat) (d : Nat → ℚ),
      (blockStarts cA).foldl
        (fun d kk =>
          (List.range' ii (min (ii + BLOCK_SIZE) rA - ii)).foldl
            (fun d i =>
              (List.range' jj (min (jj + BLOCK_SIZE) cB - jj)).foldl
                (fun d j => wr d (i * cB + j)
                  (optBlockVal a b cA cB i j kk (d (i * cB + j)))) d) d) d
      = applyUpds (fun t => t.2.1 * cB + t.2.2)
          (fun t v => optBlockVal a b cA cB t.2.1 t.2.2 t.1 v)
          ((blockStarts cA).flatMap (fun kk =>
            (List.range' ii (min (ii + BLOCK_SIZE) rA - ii)).flatMap
              (fun i => (List.range' jj (min (jj + BLOCK_SIZE) cB - jj)).map
                (fun j => (kk, i, j))))) d := by
    intro ii jj d
    rw [← foldl_applyUpds_flatMap]
    exact foldl_congr' _ _ _ _ (fun kk _ acc => h2 kk ii jj acc)
  have h4 : ∀ (ii : Nat) (d : Nat → ℚ),
      (blockStarts cB).foldl
        (fun d jj =>
          (blockStarts cA).foldl
            (fun d kk =>
              (List.range' ii (min (ii + BLOCK_SIZE) rA - ii)).foldl
                (fun d i =>
                  (List.range' jj (min (jj + BLOCK_SIZE) cB - jj)).foldl
                    (fun d j => wr d (i * cB + j)
                      (optBlockVal a b cA cB i j kk (d (i * cB + j)))) d) d) d) d
      = applyUpds (fun t => t.2.1 * cB + t.2.2)
          (fun t v => optBlockVal a b cA cB t.2.1 t.2.2 t.1 v)
          ((blockStarts cB).flatMap (fun jj =>
            (blockStarts cA).flatMap (fun kk =>
              (List.range' ii (min (ii + BLOCK_SIZE) rA - ii)).flatMap
                (fun i => (List.range' jj (min (jj + BLOCK_SIZE) cB - jj)).map
                  (fun j => (kk, i, j)))))) d := by
    intro ii d
    rw [← foldl_applyUpds_flatMap]
    exact foldl_congr' _ _ _ _ (fun jj _ acc => h3 ii jj acc)
  unfold optCompute optItems
  rw [← foldl_applyUpds_flatMap]
  exact foldl_congr' _ _ _ _ (fun ii _ acc => h4 ii acc)

/-! ## Membership and filter computations for the iteration sequences -/

theorem mem_blockStarts {n q' : Nat} (h : q' ∈ blockStarts n) :
    ∃ q, q' = q * BLOCK_SIZE ∧ q * BLOCK_SIZE < n := by
  unfold blockStarts at h
  rcases List.mem_map.mp h with ⟨q, hq, rfl⟩
  have := List.mem_range.mp hq
  refine ⟨q, rfl, ?_⟩
  simp only [BLOCK_SIZE] at *
  omega

theorem blockStarts_mem {n i : Nat} (h : i < n) :
    (i / BLOCK_SIZE) * BLOCK_SIZE ∈ blockStarts n := by
  unfold blockStarts
  refine List.mem_map.mpr ⟨i / BLOCK_SIZE, List.mem_range.mpr ?_, rfl⟩
  simp only [BLOCK_SIZE]
  omega

theorem blockStarts_nodup (n : Nat) : (blockStarts n).Nodup := by
  unfold blockStarts
  refine List.Nodup.map ?_ (List.nodup_range _)
  intro x y hxy
  simp only [BLOCK_SIZE] at hxy
  omega

theorem mem_clampRange {s n x bsz : Nat} (h : x ∈ List.range' s (min (s + bsz) n - s)) :
    s ≤ x ∧ x < s + bsz ∧ x < n := by
  rcases List.mem_range'.mp h with ⟨k, hk, rfl⟩
  omega

theorem mem_clampRange' {s n x bsz : Nat} (h1 : s ≤ x) (h2 : x < s + bsz) (h3 : x < n) :
    x ∈ List.range' s (min (s + bsz) n - s) :=
  List.mem_range'.mpr ⟨x - s, by omega, by omega⟩

theorem mem_refItems {rA cB : Nat} {p : Nat × Nat} (h : p ∈ refItems rA cB) :
    p.1 < rA ∧ p.2 < cB := by
  unfold refItems at h
  rcases List.mem_flatMap.mp h with ⟨i, hi, h⟩
  rcases List.mem_map.mp h with ⟨j, hj, rfl⟩
  exact ⟨List.mem_range.mp hi, List.mem_range.mp hj⟩

theorem mem_optItems {rA cA cB : Nat} {t : Nat × Nat × Nat} (h : t ∈ optItems rA cA cB) :
    t.1 ∈ blockStarts cA ∧ t.2.1 < rA ∧ t.2.2 < cB := by
  unfold optItems at h
  rcases List.mem_flatMap.mp h with ⟨ii, _, h⟩
  rcases List.mem_flatMap.mp h with ⟨jj, _, h⟩
  rcases List.mem_flatMap.mp h with ⟨kk, hkk, h⟩
  rcases List.mem_flatMap.mp h with ⟨i, hi, h⟩
  rcases List.mem_map.mp h with ⟨j, hj, rfl⟩
  exact ⟨hkk, (mem_clampRange hi).2.2, (mem_clampRange hj).2.2⟩

theorem refItems_filter {rA cB : Nat} (i j : Nat) (hi : i < rA) (hj : j < cB) :
    (refItems rA cB).filter (fun p => p.1 * cB + p.2 == i * cB + j) = [(i, j)] := by
  unfold refItems
  rw [List.filter_flatMap]
  have hinner : ∀ i' ∈ List.range rA,
      ((List.range cB).map (fun j' => (i', j'))).filter
          (fun p => p.1 * cB + p.2 == i * cB + j)
        = if i' = i then [(i, j)] else [] := by
    intro i' _
    by_cases hii : i' = i
    · subst hii
      rw [filter_map_eq_single (List.range cB) (fun j' => (i', j'))
          (fun p => p.1 * cB + p.2 == i' * cB + j) j (List.nodup_range cB) ?_,
        if_pos (List.mem_range.mpr hj), if_pos rfl]
      intro j' hj'
      have hj'lt := List.mem_range.mp hj'
      constructor
      · intro hbeq
        simp only [beq_iff_eq] at hbeq
        exact (rowmajor_inj hj'lt hj hbeq).2
      · intro h
        subst h
        simp
    · rw [if_neg hii, List.filter_eq_nil_iff]
      intro p hp hbeq
      rcases List.mem_map.mp hp with ⟨j', hj', rfl⟩
      simp only [beq_iff_eq] at hbeq
      exact hii (rowmajor_inj (List.mem_range.mp hj') hj hbeq).1
  rw [List.flatMap_congr hinner,
    flatMap_eq_single (List.range rA) _ i (List.nodup_range rA)
      (fun x _ hxi => if_neg hxi),
    if_pos (List.mem_range.mpr hi), if_pos rfl]

theorem optItems_filter {rA cA cB : Nat} (i j : Nat) (hi : i < rA) (hj : j < cB) :
    (optItems rA cA cB).filter (fun t => t.2.1 * cB + t.2.2 == i * cB + j)
      = (blockStarts cA).map (fun kk => (kk, i, j)) := by
  unfold optItems
  rw [List.filter_flatMap]
  have hj_level : ∀ (kk i' jj : Nat),
      ((List.range' jj (min (jj + BLOCK_SIZE) cB - jj)).map (fun j' => (kk, i', j'))).filter
          (fun t => t.2.1 * cB + t.2.2 == i * cB + j)
        = if i' = i then
            (if j ∈ List.range' jj (min (jj + BLOCK_SIZE) cB - jj) then [(kk, i, j)] else [])
          else [] := by
    intro kk i' jj
    by_cases hii : i' = i
    · subst hii
      rw [if_pos rfl,
        filter_map_eq_single (List.range' jj (min (jj + BLOCK_SIZE) cB - jj))
          (fun j' => (kk, i', j'))
          (fun t => t.2.1 * cB + t.2.2 == i' * cB + j) j (List.nodup_range' _ _) ?_]
      intro j' hj'
      have hj'lt := (mem_clampRange hj').2.2
      constructor
      · intro hbeq
        simp only [beq_iff_eq] at hbeq
        exact (rowmajor_inj hj'lt hj hbeq).2
      · intro h
        subst h
        simp
    · rw [if_neg hii, List.filter_eq_nil_iff]
      intro t ht hbeq
      rcases List.mem_map.mp ht with ⟨j', hj', rfl⟩
      simp only [beq_iff_eq] at hbeq
      exact hii (rowmajor_inj (mem_clampRange hj').2.2 hj hbeq).1
  have hi_level : ∀ (kk ii jj : Nat),
      ((List.range' ii (min (ii + BLOCK_SIZE) rA - ii)).flatMap
          (fun i' => (List.range' jj (min (jj + BLOCK_SIZE) cB - jj)).map
            (fun j' => (kk, i', j')))).filter
          (fun t => t.2.1 * cB + t.2.2 == i * cB + j)
        = if i ∈ List.range' ii (min (ii + BLOCK_SIZE) rA - ii) then
            (if j ∈ List.range' jj (min (jj + BLOCK_SIZE) cB - jj) then [(kk, i, j)] else [])
          else [] := by
    intro kk ii jj
    rw [List.filter_flatMap,
      List.flatMap_congr (fun i' _ => hj_level kk i' jj),
      flatMap_eq_single (List.range' ii (min (ii + BLOCK_SIZE) rA - ii)) _ i
        (List.nodup_range' _ _) (fun x _ hxi => if_neg hxi)]
    by_cases hmem : i ∈ List.range' ii (min (ii + BLOCK_SIZE) rA - ii)
    · simp [hmem]
    · simp [hmem]
  have hkk_level : ∀ (ii jj : Nat),
      ((blockStarts cA).flatMap (fun kk =>
          (List.range' ii (min (ii + BLOCK_SIZE) rA - ii)).flatMap
            (fun i' => (List.range' jj (min (jj + BLOCK_SIZE) cB - jj)).map
              (fun j' => (kk, i', j'))))).filter
          (fun t => t.2.1 * cB + t.2.2 == i * cB + j)
        = if i ∈ List.range' ii (min (ii + BLOCK_SIZE) rA - ii) then
            (if j ∈ List.range' jj (min (jj + BLOCK_SIZE) cB - jj) then
              (blockStarts cA).map (fun kk => (kk, i, j)) else [])
          else [] := by
    intro ii jj
    rw [List.filter_flatMap, List.flatMap_congr (fun kk _ => hi_level kk ii jj)]
    by_cases h1 : i ∈ List.range' ii (min (ii + BLOCK_SIZE) rA - ii)
    · by_cases h2 : j ∈ List.range' jj (min (jj + BLOCK_SIZE) cB - jj)
      · rw [if_pos h1, if_pos h2]
        rw [List.flatMap_congr (fun kk _ => by rw [if_pos h1, if_pos h2])]
        exact flatMap_map_singleton (blockStarts cA) (fun kk => (kk, i, j))
      · rw [if_pos h1, if_neg h2]
        exact flatMap_eq_nil _ _ (fun kk _ => by rw [if_pos h1, if_neg h2])
    · rw [if_neg h1]
      exact flatMap_eq_nil _ _ (fun kk _ => by rw [if_neg h1])
  have hjj_level : ∀ (ii : Nat),
      ((blockStarts cB).flatMap (fun jj =>
          (blockStarts cA).flatMap (fun kk =>
            (List.range' ii (min (ii + BLOCK_SIZE) rA - ii)).flatMap
              (fun i' => (List.range' jj (min (jj + BLOCK_SIZE) cB - jj)).map
                (fun j' => (kk, i', j')))))).filter
          (fun t => t.2.1 * cB + t.2.2 == i * cB + j)
        = if i ∈ List.range' ii (min (ii + BLOCK_SIZE) rA - ii) then
            (blockStarts cA).map (fun kk => (kk, i, j))
          else [] := by
    intro ii
    rw [List.filter_flatMap, List.flatMap_congr (fun jj _ => hkk_level ii jj)]
    have hsel : ∀ jj ∈ blockStarts cB, jj ≠ (j / BLOCK_SIZE) * BLOCK_SIZE →
        (if i ∈ List.range' ii (min (ii + BLOCK_SIZE) rA - ii) then
          (if j ∈ List.range' jj (min (jj + BLOCK_SIZE) cB - jj) then
            (blockStarts cA).map (fun kk => (kk, i, j)) else [])
        else []) = [] := by
      intro jj hjj hne
      by_cases h1 : i ∈ List.range' ii (min (ii + BLOCK_SIZE) rA - ii)
      · rw [if_pos h1]
        rw [if_neg ?_]
        intro hmem
        rcases mem_blockStarts hjj with ⟨q, rfl, _⟩
        rcases mem_clampRange hmem with ⟨ha, hb, _⟩
        apply hne
        simp only [BLOCK_SIZE] at *
        omega
      · rw [if_neg h1]
    rw [flatMap_eq_single (blockStarts cB) _ ((j / BLOCK_SIZE) * BLOCK_SIZE)
        (blockStarts_nodup cB) hsel,
      if_pos (blockStarts_mem hj)]
    by_cases h1 : i ∈ List.range' ii (min (ii + BLOCK_SIZE) rA - ii)
    · rw [if_pos h1, if_pos h1, if_pos ?_]
      refine mem_clampRange' ?_ ?_ hj
      · simp only [BLOCK_SIZE]; omega
      · simp only [BLOCK_SIZE]; omega
    · rw [if_neg h1, if_neg h1]
  rw [List.flatMap_congr (fun ii _ => hjj_level ii)]
  have hsel : ∀ ii ∈ blockStarts rA, ii ≠ (i / BLOCK_SIZE) * BLOCK_SIZE →
      (if i ∈ List.range' ii (min (ii + BLOCK_SIZE) rA - ii) then
        (blockStarts cA).map (fun kk => (kk, i, j))
      else []) = [] := by
    intro ii hii hne
    rw [if_neg ?_]
    intro hmem
    rcases mem_blockStarts hii with ⟨q, rfl, _⟩
    rcases mem_clampRange hmem with ⟨ha, hb, _⟩
    apply hne
    simp only [BLOCK_SIZE] at *
    omega
  rw [flatMap_eq_single (blockStarts rA) _ ((i / BLOCK_SIZE) * BLOCK_SIZE)
      (blockStarts_nodup rA) hsel,
    if_pos (blockStarts_mem hi), if_pos ?_]
  refine mem_clampRange' ?_ ?_ hi
  · simp only [BLOCK_SIZE]; omega
  · simp only [BLOCK_SIZE]; omega

/-! ## Frame and read lemmas for the kernels -/

theorem refDest_frame (a b : Nat → Nat) (rA cA cB : Nat) (d : Nat → Nat) (x : Nat)
    (hx : rA * cB ≤ x) : refDest a b rA cA cB d x = d x := by
  rw [refDest_eq, applyUpds_read]
  have hnil : (refItems rA cB).filter (fun p => p.1 * cB + p.2 == x) = [] := by
    rw [List.filter_eq_nil_iff]
    intro p hp hbeq
    simp only [beq_iff_eq] at hbeq
    rcases mem_refItems hp with ⟨h1, h2⟩
    have hlt := rowmajor_lt h1 h2
    rw [hbeq] at hlt
    exact absurd hx (not_le.mpr hlt)
  rw [hnil]
  rfl

theorem optInit_frame (rA cB : Nat) (d : Nat → ℚ) (x : Nat)
    (hx : rA * cB ≤ x) : optInit rA cB d x = d x := by
  rw [optInit_eq, applyUpds_read]
  have hnil : (refItems rA cB).filter (fun p => p.1 * cB + p.2 == x) = [] := by
    rw [List.filter_eq_nil_iff]
    intro p hp hbeq
    simp only [beq_iff_eq] at hbeq
    rcases mem_refItems hp with ⟨h1, h2⟩
    have hlt := rowmajor_lt h1 h2
    rw [hbeq] at hlt
    exact absurd hx (not_le.mpr hlt)
  rw [hnil]
  rfl

theorem optCompute_frame (a b : Nat → ℚ) (rA cA cB : Nat) (d : Nat → ℚ) (x : Nat)
    (hx : rA * cB ≤ x) : optCompute a b rA cA cB d x = d x := by
  rw [optCompute_eq, applyUpds_read]
  have hnil : (optItems rA cA cB).filter (fun t => t.2.1 * cB + t.2.2 == x) = [] := by
    rw [List.filter_eq_nil_iff]
    intro t ht hbeq
    simp only [beq_iff_eq] at hbeq
    rcases mem_optItems ht with ⟨_, h1, h2⟩
    have hlt := rowmajor_lt h1 h2
    rw [hbeq] at hlt
    exact absurd hx (not_le.mpr hlt)
  rw [hnil]
  rfl

theorem refDest_read (a b : Nat → Nat) (rA cA cB : Nat) (d : Nat → Nat) (i j : Nat)
    (hi : i < rA) (hj : j < cB) :
    refDest a b rA cA cB d (i * cB + j) = refCell a b cA cB i j := by
  rw [refDest_eq, applyUpds_read, refItems_filter i j hi hj]
  rfl

theorem optInit_read (rA cB : Nat) (d : Nat → ℚ) (i j : Nat)
    (hi : i < rA) (hj : j < cB) :
    optInit rA cB d (i * cB + j) = 0 := by
  rw [optInit_eq, applyUpds_read, refItems_filter i j hi hj]
  rfl

theorem optCompute_read (a b : Nat → ℚ) (rA cA cB : Nat) (d : Nat → ℚ) (i j : Nat)
    (hi : i < rA) (hj : j < cB) :
    optCompute a b rA cA cB d (i * cB + j)
      = (blockStarts cA).foldl (fun v kk => optBlockVal a b cA cB i j kk v)
          (d (i * cB + j)) := by
  rw [optCompute_eq, applyUpds_read, optItems_filter i j hi hj, List.foldl_map]

/-- Iterating the clamped tile ranges in block order visits exactly
`0, 1, ..., n-1` in order. -/
theorem blockStarts_foldl {α : Type _} (n : Nat) (f : α → Nat → α) (v : α) :
    (blockStarts n).foldl
      (fun v kk => (List.range' kk (min (kk + BLOCK_SIZE) n - kk)).foldl f v) v
      = (List.range n).foldl f v := by
  have aux : ∀ (m : Nat) (v : α), ((List.range m).map (fun q => q * BLOCK_SIZE)).foldl
      (fun v kk => (List.range' kk (min (kk + BLOCK_SIZE) n - kk)).foldl f v) v
      = (List.range (min (m * BLOCK_SIZE) n)).foldl f v := by
    intro m
    induction m with
    | zero => intro v; simp
    | succ m ih =>
      intro v
      rw [List.range_succ, List.map_append, List.foldl_append, ih]
      simp only [List.map_cons, List.map_nil, List.foldl_cons, List.foldl_nil]
      rw [← List.foldl_append]
      congr 1
      by_cases hc : n ≤ m * BLOCK_SIZE
      · have h1 : min (m * BLOCK_SIZE) n = n := by omega
        have h2 : min (m * BLOCK_SIZE + BLOCK_SIZE) n - m * BLOCK_SIZE = 0 := by omega
        have h3 : min ((m + 1) * BLOCK_SIZE) n = n := by
          simp only [BLOCK_SIZE] at *
          omega
        rw [h1, h2, h3]
        simp
      · have h1 : min (m * BLOCK_SIZE) n = m * BLOCK_SIZE := by omega
        rw [h1, List.range_eq_range', List.range_eq_range']
        have happ := List.range'_append 0 (m * BLOCK_SIZE)
          (min (m * BLOCK_SIZE + BLOCK_SIZE) n - m * BLOCK_SIZE) 1
        simp only [one_mul, zero_add] at happ
        rw [happ]
        congr 1
        simp only [BLOCK_SIZE] at *
        omega
  unfold blockStarts
  rw [aux]
  have hmin : min ((n + BLOCK_SIZE - 1) / BLOCK_SIZE * BLOCK_SIZE) n = n := by
    simp only [BLOCK_SIZE]
    omega
  rw [hmin]

theorem foldl_add_eq_sum {M : Type _} [AddCommMonoid M] (n : Nat) (f : Nat → M) (c : M) :
    (List.range n).foldl (fun v k => v + f k) c = c + Finset.sum (Finset.range n) f := by
  induction n with
  | zero => simp
  | succ n ih =>
    rw [List.range_succ, List.foldl_append, ih]
    simp [Finset.sum_range_succ, add_assoc]

/-- The central correctness fact about the blocked kernel: over exact
rational arithmetic, every in-bounds output cell of
`impl_mmult_opt` holds the mathematical dot product
`Σ_k A[i][k] * B[k][j]`. -/
theorem opt_cell_value (a b : Nat → ℚ) (rA cA cB : Nat) (d : Nat → ℚ) (i j : Nat)
    (hi : i < rA) (hj : j < cB) :
    optCompute a b rA cA cB (optInit rA cB d) (i * cB + j)
      = Finset.sum (Finset.range cA) (fun k => a (i * cA + k) * b (k * cB + j)) := by
  rw [optCompute_read a b rA cA cB _ i j hi hj, optInit_read rA cB d i j hi hj]
  have hfold := blockStarts_foldl (α := ℚ) cA
    (fun v k => v + a (i * cA + k) * b (k * cB + j)) 0
  rw [show (fun v kk => optBlockVal a b cA cB i j kk v)
      = fun v kk => (List.range' kk (min (kk + BLOCK_SIZE) cA - kk)).foldl
          (fun v k => v + a (i * cA + k) * b (k * cB + j)) v from rfl]
  rw [hfold, foldl_add_eq_sum, zero_add]

/-- Accumulating the reference kernel's cell in linear `k` order equals
the mod-2^32 reduction of the integer dot product of the bit patterns. -/
theorem refCell_eq_sum (a b : Nat → Nat) (cA cB i j : Nat) :
    refCell a b cA cB i j
      = (Finset.sum (Finset.range cA) (fun k => a (i * cA + k) * b (k * cB + j))) % U32 := by
  unfold refCell
  have aux : ∀ (n : Nat),
      (List.range n).foldl
        (fun sum k => add32 sum (mul32 (a (i * cA + k)) (b (k * cB + j)))) 0
      = (Finset.sum (Finset.range n) (fun k => a (i * cA + k) * b (k * cB + j))) % U32 := by
    intro n
    induction n with
    | zero => simp [U32]
    | succ n ih =>
      rw [List.range_succ, List.foldl_append, ih]
      simp only [List.foldl_cons, List.foldl_nil, add32, mul32, Finset.sum_range_succ,
        Nat.mod_add_mod, Nat.add_mod_mod]
  exact aux cA

/-! ## Integer square root bridge and statistics helper lemmas -/

theorem isqrtDown_eq (n : Nat) : ∀ k, Nat.sqrt n ≤ k → isqrtDown n k = Nat.sqrt n := by
  intro k
  induction k with
  | zero =>
    intro h
    simp only [isqrtDown]
    omega
  | succ k ih =>
    intro h
    simp only [isqrtDown]
    by_cases hle : (k + 1) * (k + 1) ≤ n
    · have : k + 1 ≤ Nat.sqrt n := Nat.le_sqrt.mpr hle
      rw [if_pos hle]
      omega
    · have : Nat.sqrt n < k + 1 := Nat.sqrt_lt.mpr (by omega)
      rw [if_neg hle]
      exact ih (by omega)

theorem isqrt_eq (n : Nat) : isqrt n = Nat.sqrt n :=
  isqrtDown_eq n n (Nat.sqrt_le_self n)

theorem listsum_int_to_rat (l : List Nat) :
    (((l.map (fun (y : Nat) => (y : Int))).sum : Int) : ℚ) = (l.map (fun (y : Nat) => (y : ℚ))).sum := by
  induction l with
  | nil => simp
  | cons x xs ih =>
    simp only [List.map_cons, List.sum_cons, Int.cast_add, Int.cast_natCast, ih]

theorem listsumsq_int_to_rat (l : List Nat) :
    (((l.map (fun (y : Nat) => (y : Int) * y)).sum : Int) : ℚ) = (l.map (fun (y : Nat) => (y : ℚ) * y)).sum := by
  induction l with
  | nil => simp
  | cons x xs ih =>
    simp only [List.map_cons, List.sum_cons, Int.cast_add, Int.cast_mul, Int.cast_natCast, ih]

theorem sum_sq_dev (l : List Nat) (m : ℚ) :
    (l.map (fun (y : Nat) => ((y : ℚ) - m) ^ 2)).sum
      = (l.map (fun (y : Nat) => (y : ℚ) * y)).sum - 2 * m * (l.map (fun (y : Nat) => (y : ℚ))).sum
          + (l.length : ℚ) * m ^ 2 := by
  induction l with
  | nil => simp
  | cons x xs ih =>
    simp only [List.map_cons, List.sum_cons, List.length_cons, Nat.cast_add, Nat.cast_one, ih]
    ring

/-- The integer masking test used in `ratPass` is exactly claim C4's
`|x-μ| > k·σ` test (in its squared form) over exact rationals. -/
theorem ratPass_mask_test (act : List Nat) (x nstd : Nat) (hne : act ≠ []) :
    (((act.length : Int) * x - (act.map (fun (y : Nat) => (y : Int))).sum) ^ 2
        ≤ (nstd : Int) ^ 2 * ((act.length : Int) * (act.map (fun (y : Nat) => (y : Int) * y)).sum
            - ((act.map (fun (y : Nat) => (y : Int))).sum) ^ 2))
      ↔ ((x : ℚ) - ratMean act) ^ 2 ≤ (nstd : ℚ) ^ 2 * ratVar act (ratMean act) := by
  have hlen : 0 < act.length := List.length_pos.mpr hne
  have hN : (0 : ℚ) < (act.length : ℚ) := by exact_mod_cast hlen
  have hN2 : (0 : ℚ) < ((act.length : ℚ)) ^ 2 := by positivity
  have hvar : ratVar act (ratMean act)
      = ((act.length : ℚ) * (act.map (fun (y : Nat) => (y : ℚ) * y)).sum
          - ((act.map (fun (y : Nat) => (y : ℚ))).sum) ^ 2) / ((act.length : ℚ)) ^ 2 := by
    unfold ratVar ratMean
    rw [sum_sq_dev]
    field_simp
    ring
  have hmean : ratMean act = ((act.map (fun (y : Nat) => (y : ℚ))).sum) / (act.length : ℚ) := rfl
  have e1 : ((x : ℚ) - ((act.map (fun (y : Nat) => (y : ℚ))).sum) / (act.length : ℚ)) ^ 2
      = ((act.length : ℚ) * (x : ℚ) - (act.map (fun (y : Nat) => (y : ℚ))).sum) ^ 2
          / ((act.length : ℚ)) ^ 2 := by
    field_simp
    ring
  have e2 : (nstd : ℚ) ^ 2 * (((act.length : ℚ) * (act.map (fun (y : Nat) => (y : ℚ) * y)).sum
        - ((act.map (fun (y : Nat) => (y : ℚ))).sum) ^ 2) / ((act.length : ℚ)) ^ 2)
      = ((nstd : ℚ) ^ 2 * ((act.length : ℚ) * (act.map (fun (y : Nat) => (y : ℚ) * y)).sum
          - ((act.map (fun (y : Nat) => (y : ℚ))).sum) ^ 2)) / ((act.length : ℚ)) ^ 2 := by
    ring
  rw [hvar, hmean, e1, e2, div_le_div_iff_of_pos_right hN2]
  have l1 : ((((act.length : Int) * x - (act.map (fun (y : Nat) => (y : Int))).sum) ^ 2 : Int) : ℚ)
      = ((act.length : ℚ) * (x : ℚ) - (act.map (fun (y : Nat) => (y : ℚ))).sum) ^ 2 := by
    simp only [Int.cast_pow, Int.cast_sub, Int.cast_mul, Int.cast_natCast, listsum_int_to_rat]
  have r1 : (((nstd : Int) ^ 2 * ((act.length : Int) * (act.map (fun (y : Nat) => (y : Int) * y)).sum
        - ((act.map (fun (y : Nat) => (y : Int))).sum) ^ 2) : Int) : ℚ)
      = (nstd : ℚ) ^ 2 * ((act.length : ℚ) * (act.map (fun (y : Nat) => (y : ℚ) * y)).sum
          - ((act.map (fun (y : Nat) => (y : ℚ))).sum) ^ 2) := by
    simp only [Int.cast_pow, Int.cast_sub, Int.cast_mul, Int.cast_natCast,
      listsum_int_to_rat, listsumsq_int_to_rat]
  rw [← l1, ← r1, Int.cast_le]

/-! ## The blocked kernel reads only in-bounds elements -/

/-- `impl_mmult_opt`'s compute phase depends only on the in-bounds
elements of A and B: inputs agreeing there produce identical outputs. -/
theorem optCompute_agree (a a' b b' : Nat → ℚ) (rA cA cB : Nat) (d : Nat → ℚ)
    (ha : ∀ idx, idx < rA * cA → a idx = a' idx)
    (hb : ∀ idx, idx < cA * cB → b idx = b' idx) :
    optCompute a b rA cA cB d = optCompute a' b' rA cA cB d := by
  rw [optCompute_eq, optCompute_eq]
  apply applyUpds_congr
  intro t ht v
  rcases mem_optItems ht with ⟨_, hti, htj⟩
  unfold optBlockVal
  apply foldl_congr'
  intro k hk acc
  rcases mem_clampRange hk with ⟨_, _, hkcA⟩
  rw [ha _ (rowmajor_lt hti hkcA), hb _ (rowmajor_lt hkcA htj)]

/-! ## The reference kernel's store trace -/

theorem applyUpds_const_trace {β α : Type _} (addr : β → Nat) (c : β → α)
    (items : List β) (d : Nat → α) :
    applyUpds addr (fun p _ => c p) items d
      = (items.map (fun p => (addr p, c p))).foldl (fun d e => wr d e.1 e.2) d := by
  induction items generalizing d with
  | nil => rfl
  | cons it rest ih => exact ih (wr d (addr it) (c it))

theorem refWriteTrace_eq (a b : Nat → Nat) (rA cA cB : Nat) :
    refWriteTrace a b rA cA cB
      = (refItems rA cB).map (fun p => (p.1 * cB + p.2, refCell a b cA cB p.1 p.2)) := by
  unfold refWriteTrace refItems
  rw [List.map_flatMap]
  refine List.flatMap_congr (fun i _ => ?_)
  rw [List.map_map]
  rfl

/-- The reference kernel's final memory is obtained by replaying its
store trace, in order, over the initial memory: `refWriteTrace` is a
faithful record of the stores `impl_ref` performs. -/
theorem refDest_eq_trace (a b : Nat → Nat) (rA cA cB : Nat) (d : Nat → Nat) :
    refDest a b rA cA cB d
      = (refWriteTrace a b rA cA cB).foldl (fun d e => wr d e.1 e.2) d := by
  rw [refDest_eq, refWriteTrace_eq, ← applyUpds_const_trace]

/-! ## Equivalence of the statistics pass with its exact-integer reading -/

theorem sub64_mul_self (x avg : Nat) (hx : x < 2 ^ 16) (havg : avg < 2 ^ 16) :
    mul64 (sub64 x avg) (sub64 x avg) = intDev avg x * intDev avg x := by
  unfold mul64 sub64 intDev U64
  rcases le_or_lt avg x with h | h
  · have h1 : (x + 2 ^ 64 - avg) % 2 ^ 64 = x - avg := by omega
    have h2 : ((x : Int) - avg).natAbs = x - avg := by omega
    have h3 : (x - avg) * (x - avg) < 2 ^ 64 := by
      calc (x - avg) * (x - avg) < 2 ^ 16 * 2 ^ 16 := by
            exact Nat.mul_lt_mul'' (by omega) (by omega)
      _ < 2 ^ 64 := by norm_num
    rw [h1, h2, Nat.mod_eq_of_lt h3]
  · have h1 : (x + 2 ^ 64 - avg) % 2 ^ 64 = 2 ^ 64 - (avg - x) := by omega
    have h2 : ((x : Int) - avg).natAbs = avg - x := by omega
    have key : (2 ^ 64 - (avg - x)) * (2 ^ 64 - (avg - x))
        = 2 ^ 64 * (2 ^ 64 - 2 * (avg - x)) + (avg - x) * (avg - x) := by
      zify [show 2 * (avg - x) ≤ 2 ^ 64 by omega, show avg - x ≤ 2 ^ 64 by omega]
      ring
    have h3 : (avg - x) * (avg - x) < 2 ^ 64 := by
      calc (avg - x) * (avg - x) < 2 ^ 16 * 2 ^ 16 := by
            exact Nat.mul_lt_mul'' (by omega) (by omega)
      _ < 2 ^ 64 := by norm_num
    rw [h1, h2, key, Nat.mul_add_mod, Nat.mod_eq_of_lt h3]

theorem foldl_add64_eq (pairs : List (Nat × Bool)) (f : Nat → Nat) (s : Nat)
    (hbound : s + ((pairs.filter (fun p => p.2)).map (fun p => f p.1)).sum < U64) :
    pairs.foldl (fun s p => if p.2 then add64 s (f p.1) else s) s
      = s + ((pairs.filter (fun p => p.2)).map (fun p => f p.1)).sum := by
  induction pairs generalizing s with
  | nil => simp
  | cons p ps ih =>
    by_cases hp : p.2
    · simp only [List.filter_cons, hp, if_true, List.map_cons, List.sum_cons] at hbound ⊢
      simp only [List.foldl_cons, hp, if_true]
      have hstep : add64 s (f p.1) = s + f p.1 := by
        unfold add64 U64
        unfold U64 at hbound
        apply Nat.mod_eq_of_lt
        omega
      rw [hstep, ih (s + f p.1) (by unfold U64 at *; omega)]
      omega
    · simp only [List.filter_cons, hp, Bool.false_eq_true, if_false] at hbound ⊢
      simp only [List.foldl_cons, hp, Bool.false_eq_true, if_false]
      exact ih s hbound

theorem listsum_le (l : List Nat) (c : Nat) (h : ∀ x ∈ l, x ≤ c) :
    l.sum ≤ l.length * c := by
  induction l with
  | nil => simp
  | cons x xs ih =>
    simp only [List.sum_cons, List.length_cons]
    have h1 := h x (by simp)
    have h2 := ih (fun y hy => h y (by simp [hy]))
    calc x + xs.sum ≤ c + xs.length * c := by omega
    _ = (xs.length + 1) * c := by ring

theorem listsum_ge (l : List Nat) (c : Nat) (f : Nat → Nat) (h : ∀ x ∈ l, c ≤ f x) :
    l.length * c ≤ (l.map f).sum := by
  induction l with
  | nil => simp
  | cons x xs ih =>
    simp only [List.map_cons, List.sum_cons, List.length_cons]
    have h1 := h x (by simp)
    have h2 := ih (fun y hy => h y (by simp [hy]))
    calc (xs.length + 1) * c = c + xs.length * c := by ring
    _ ≤ f x + (xs.map f).sum := by omega

theorem maskedOff_eq (avg std nstd x : Nat) :
    maskedOff avg std nstd x = decide (nstd * std < intDev avg x) := by
  unfold maskedOff intDev
  by_cases h : x > avg
  · have habs : ((x : Int) - avg).natAbs = x - avg := by omega
    rw [if_pos h, habs]
    by_cases h2 : x - avg > nstd * std
    · simp [h2]
    · simp [h2]
  · have habs : ((x : Int) - avg).natAbs = avg - x := by omega
    rw [if_neg h, habs]
    by_cases h2 : avg - x > nstd * std
    · simp [h2]
    · simp [h2]

theorem activeVals_mem {rt : List Nat} {mask : List Bool} {x : Nat}
    (h : x ∈ activeVals rt mask) : x ∈ rt := by
  unfold activeVals at h
  rcases List.mem_map.mp h with ⟨p, hp, rfl⟩
  exact (List.of_mem_zip (List.mem_filter.mp hp).1).1

theorem activeVals_length_le (rt : List Nat) (mask : List Bool) :
    (activeVals rt mask).length ≤ rt.length := by
  unfold activeVals
  rw [List.length_map]
  calc ((rt.zip mask).filter (fun p => p.2)).length ≤ (rt.zip mask).length :=
        List.length_filter_le _ _
  _ ≤ rt.length := by rw [List.length_zip]; omega

/-- The pass average is bounded by the bound on the samples. -/
theorem specAvg_lt (rt : List Nat) (mask : List Bool)
    (hsmall : ∀ x ∈ rt, x < 2 ^ 16) :
    (activeVals rt mask).sum / (activeVals rt mask).length < 2 ^ 16 := by
  rcases Nat.eq_zero_or_pos (activeVals rt mask).length with h0 | hpos
  · simp [h0]
  · have hle : (activeVals rt mask).sum ≤ (activeVals rt mask).length * (2 ^ 16 - 1) :=
      listsum_le _ _ (fun x hx => by have := hsmall x (activeVals_mem hx); omega)
    have := Nat.div_le_of_le_mul hle
    omega

theorem intDev_lt (avg x : Nat) (hx : x < 2 ^ 16) (havg : avg < 2 ^ 16) :
    intDev avg x < 2 ^ 16 := by
  unfold intDev
  omega

theorem statsPass_eq_specPass (rt : List Nat) (mask : List Bool) (nstd : Nat)
    (hsmall : ∀ x ∈ rt, x < 2 ^ 16) (hlen : rt.length < 2 ^ 31) :
    statsPass rt mask nstd = specPass rt mask nstd := by
  have hactmem : ∀ x ∈ activeVals rt mask, x < 2 ^ 16 :=
    fun x hx => hsmall x (activeVals_mem hx)
  have hfillen : (((rt.zip mask).filter (fun p => p.2)).map (fun p => p.1)).length
      ≤ rt.length := by
    rw [List.length_map]
    calc ((rt.zip mask).filter (fun p => p.2)).length ≤ (rt.zip mask).length :=
          List.length_filter_le _ _
    _ ≤ rt.length := by rw [List.length_zip]; omega
  have havgSum : (rt.zip mask).foldl (fun s p => if p.2 then add64 s p.1 else s) 0
      = (activeVals rt mask).sum := by
    have h1 : (((rt.zip mask).filter (fun p => p.2)).map (fun p => p.1)).sum
        ≤ (((rt.zip mask).filter (fun p => p.2)).map (fun p => p.1)).length * (2 ^ 16 - 1) := by
      apply listsum_le
      intro x hx
      rcases List.mem_map.mp hx with ⟨p, hp, rfl⟩
      have := hsmall p.1 (List.of_mem_zip (List.mem_filter.mp hp).1).1
      omega
    have h3 : (((rt.zip mask).filter (fun p => p.2)).map (fun p => p.1)).length * (2 ^ 16 - 1)
        ≤ 2 ^ 31 * (2 ^ 16 - 1) := Nat.mul_le_mul_right _ (by omega)
    have hb : (0 : Nat) + (((rt.zip mask).filter (fun p => p.2)).map (fun p => p.1)).sum
        < U64 := by unfold U64; omega
    have := foldl_add64_eq (rt.zip mask) (fun x => x) 0 hb
    simpa [activeVals] using this
  set act := activeVals rt mask with hact
  set avg := act.sum / act.length with havgdef
  have havg : avg < 2 ^ 16 := specAvg_lt rt mask hsmall
  have hstdSum : (rt.zip mask).foldl
      (fun s p => if p.2 then add64 s (mul64 (sub64 p.1 avg) (sub64 p.1 avg)) else s) 0
      = (act.map (fun x => intDev avg x * intDev avg x)).sum := by
    have hcongr : (rt.zip mask).foldl
        (fun s p => if p.2 then add64 s (mul64 (sub64 p.1 avg) (sub64 p.1 avg)) else s) 0
        = (rt.zip mask).foldl
          (fun s p => if p.2 then add64 s (intDev avg p.1 * intDev avg p.1) else s) 0 := by
      apply foldl_congr'
      intro p hp acc
      have hx : p.1 < 2 ^ 16 := hsmall p.1 (List.of_mem_zip hp).1
      rw [sub64_mul_self p.1 avg hx havg]
    have h1 : (((rt.zip mask).filter (fun p => p.2)).map
        (fun p => intDev avg p.1 * intDev avg p.1)).sum
        ≤ (((rt.zip mask).filter (fun p => p.2)).map
          (fun p => intDev avg p.1 * intDev avg p.1)).length
            * ((2 ^ 16 - 1) * (2 ^ 16 - 1)) := by
      apply listsum_le
      intro x hx
      rcases List.mem_map.mp hx with ⟨p, hp, rfl⟩
      have hxlt : p.1 < 2 ^ 16 := hsmall p.1 (List.of_mem_zip (List.mem_filter.mp hp).1).1
      have := intDev_lt avg p.1 hxlt havg
      exact Nat.mul_le_mul (by omega) (by omega)
    have h2 : (((rt.zip mask).filter (fun p => p.2)).map
        (fun p => intDev avg p.1 * intDev avg p.1)).length ≤ rt.length := by
      rw [List.length_map]
      calc ((rt.zip mask).filter (fun p => p.2)).length ≤ (rt.zip mask).length :=
            List.length_filter_le _ _
      _ ≤ rt.length := by rw [List.length_zip]; omega
    have h3 : (((rt.zip mask).filter (fun p => p.2)).map
        (fun p => intDev avg p.1 * intDev avg p.1)).length * ((2 ^ 16 - 1) * (2 ^ 16 - 1))
        ≤ 2 ^ 31 * ((2 ^ 16 - 1) * (2 ^ 16 - 1)) := Nat.mul_le_mul_right _ (by omega)
    have hb : (0 : Nat) + (((rt.zip mask).filter (fun p => p.2)).map
        (fun p => intDev avg p.1 * intDev avg p.1)).sum < U64 := by unfold U64; omega
    rw [hcongr, foldl_add64_eq (rt.zip mask) (fun x => intDev avg x * intDev avg x) 0 hb,
      hact]
    unfold activeVals
    rw [List.map_map]
    rw [Nat.zero_add]
    exact congrArg List.sum (List.map_congr_left (fun p _ => rfl))
  have hmasked : ∀ x : Nat, ∀ std : Nat,
      maskedOff avg std nstd x = decide (nstd * std < intDev avg x) :=
    fun x std => maskedOff_eq avg std nstd x
  have hflen : ((rt.zip mask).filter (fun p => p.2)).length = act.length := by
    rw [hact]
    unfold activeVals
    rw [List.length_map]
  simp only [statsPass, specPass, havgSum, hflen, ← havgdef, hstdSum, isqrt_eq]
  congr 1
  · apply List.map_congr_left
    intro p _
    by_cases hp : p.2
    · simp only [hp, if_true, hmasked]
      rw [← decide_not, decide_eq_decide]
      exact Nat.not_lt
    · simp [hp]
  · simp only [hact]
    congr 1
    apply List.filter_congr
    intro p _
    rw [hmasked]

theorem statsLoop_eq_specLoop (rt : List Nat) (nstd : Nat)
    (hsmall : ∀ x ∈ rt, x < 2 ^ 16) (hlen : rt.length < 2 ^ 31) :
    ∀ fuel mask ns, statsLoop rt nstd fuel mask ns = specLoop rt nstd fuel mask ns := by
  intro fuel
  induction fuel with
  | zero => intro mask ns; rfl
  | succ fuel ih =>
    intro mask ns
    simp only [statsLoop, specLoop, statsPass_eq_specPass rt mask nstd hsmall hlen]
    by_cases h : 0 < (specPass rt mask nstd).nMsked
    · rw [if_pos h, if_pos h, ih]
    · rw [if_neg h, if_neg h]

theorem outlierStats_eq_outlierSpec (rt : List Nat) (nstd : Nat)
    (hsmall : ∀ x ∈ rt, x < 2 ^ 16) (hlen : rt.length < 2 ^ 31) :
    outlierStats rt nstd = outlierSpec rt nstd :=
  statsLoop_eq_specLoop rt nstd hsmall hlen _ _ _

theorem zip_map_snd_eq (rt : List Nat) (f : Nat × Bool → Bool) :
    ∀ mask : List Bool, mask.length = rt.length →
      (∀ p ∈ rt.zip mask, f p = p.2) → (rt.zip mask).map f = mask := by
  induction rt with
  | nil =>
    intro mask hlen _
    rw [List.length_nil, List.length_eq_zero] at hlen
    subst hlen
    rfl
  | cons x xs ih =>
    intro mask hlen hfix
    cases mask with
    | nil => simp at hlen
    | cons b bs =>
      simp only [List.zip_cons_cons, List.map_cons]
      rw [hfix (x, b) (by simp), ih bs (by simpa using hlen)
        (fun p hp => hfix p (by simp [hp]))]

theorem statsPass_mask_length (rt : List Nat) (mask : List Bool) (nstd : Nat)
    (hlen : mask.length = rt.length) :
    (statsPass rt mask nstd).mask.length = rt.length := by
  simp only [statsPass]
  rw [List.length_map, List.length_zip]
  omega

theorem statsPass_mask_fix (rt : List Nat) (mask : List Bool) (nstd : Nat)
    (hlen : mask.length = rt.length)
    (h0 : (statsPass rt mask nstd).nMsked = 0) :
    (statsPass rt mask nstd).mask = mask := by
  simp only [statsPass] at h0 ⊢
  rw [List.length_eq_zero, List.filter_eq_nil_iff] at h0
  apply zip_map_snd_eq rt _ mask hlen
  intro p hp
  by_cases hb : p.2
  · have := h0 p hp
    simp only [hb, Bool.true_and] at this
    simp only [hb, if_true]
    simp only [Bool.not_eq_true] at this
    rw [this]
    rfl
  · simp only [Bool.not_eq_true] at hb
    simp [hb]

theorem count_mask_split (msk : Nat → Bool) :
    ∀ l : List (Nat × Bool),
      (l.map (fun p => if p.2 then !msk p.1 else false)).count true
        + (l.filter (fun p => p.2 && msk p.1)).length
      = (l.map (fun p => p.2)).count true := by
  intro l
  induction l with
  | nil => rfl
  | cons p ps ih =>
    rcases p with ⟨x, b⟩
    cases b <;> by_cases hm : msk x <;>
      simp [List.count_cons, List.filter_cons, hm] at ih ⊢ <;> omega

theorem statsPass_count (rt : List Nat) (mask : List Bool) (nstd : Nat)
    (hlen : mask.length = rt.length) :
    (statsPass rt mask nstd).mask.count true + (statsPass rt mask nstd).nMsked
      = mask.count true := by
  simp only [statsPass]
  rw [count_mask_split]
  rw [zip_map_snd_eq rt (fun p => p.2) mask hlen (fun _ _ => rfl)]

theorem statsLoop_fix (rt : List Nat) (nstd : Nat) :
    ∀ fuel mask ns, mask.length = rt.length → mask.count true < fuel →
      (statsPass rt (statsLoop rt nstd fuel mask ns).mask nstd).nMsked = 0
        ∧ (statsLoop rt nstd fuel mask ns).mask.length = rt.length
        ∧ (statsLoop rt nstd fuel mask ns).avg
            = (statsPass rt (statsLoop rt nstd fuel mask ns).mask nstd).avg
        ∧ (statsLoop rt nstd fuel mask ns).avgN
            = (statsPass rt (statsLoop rt nstd fuel mask ns).mask nstd).avgN := by
  intro fuel
  induction fuel with
  | zero => intro mask ns _ h; omega
  | succ fuel ih =>
    intro mask ns hlen hcount
    simp only [statsLoop]
    by_cases h : 0 < (statsPass rt mask nstd).nMsked
    · rw [if_pos h]
      apply ih
      · exact statsPass_mask_length rt mask nstd hlen
      · have := statsPass_count rt mask nstd hlen
        omega
    · rw [if_neg h]
      have h0 : (statsPass rt mask nstd).nMsked = 0 := by omega
      have hm := statsPass_mask_fix rt mask nstd hlen h0
      refine ⟨?_, ?_, ?_, ?_⟩
      · show (statsPass rt (statsPass rt mask nstd).mask nstd).nMsked = 0
        rw [hm]
        exact h0
      · show (statsPass rt mask nstd).mask.length = rt.length
        exact statsPass_mask_length rt mask nstd hlen
      · show (statsPass rt mask nstd).avg
            = (statsPass rt (statsPass rt mask nstd).mask nstd).avg
        rw [hm]
      · show (statsPass rt mask nstd).avgN
            = (statsPass rt (statsPass rt mask nstd).mask nstd).avgN
        rw [hm]

/-- The sample of least deviation survives the rejection test: its
deviation cannot exceed `k·σ` when `k ≥ 1`, because σ is at least the
least deviation. -/
theorem exists_lowdev (act : List Nat) (nstd : Nat) (hk : 1 ≤ nstd) (hne : act ≠ []) :
    ∃ x ∈ act,
      intDev (act.sum / act.length) x
        ≤ nstd * Nat.sqrt ((act.map (fun x => intDev (act.sum / act.length) x
            * intDev (act.sum / act.length) x)).sum / act.length) := by
  by_contra hcon
  push_neg at hcon
  have hlen : 0 < act.length := List.length_pos.mpr hne
  set μ := act.sum / act.length with hμ
  set σ := Nat.sqrt ((act.map (fun x => intDev μ x * intDev μ x)).sum / act.length) with hσ
  have hterm : ∀ x ∈ act, (σ + 1) * (σ + 1) ≤ intDev μ x * intDev μ x := by
    intro x hx
    have h1 := hcon x hx
    have h2 : σ ≤ nstd * σ := Nat.le_mul_of_pos_left σ (by omega)
    have h3 : σ + 1 ≤ intDev μ x := by omega
    exact Nat.mul_le_mul h3 h3
  have hsum : act.length * ((σ + 1) * (σ + 1))
      ≤ (act.map (fun x => intDev μ x * intDev μ x)).sum :=
    listsum_ge act _ _ hterm
  have hdiv : (σ + 1) * (σ + 1)
      ≤ (act.map (fun x => intDev μ x * intDev μ x)).sum / act.length :=
    (Nat.le_div_iff_mul_le hlen).mpr (by rw [Nat.mul_comm]; exact hsum)
  have : σ + 1 ≤ σ := le_of_le_of_eq (Nat.le_sqrt.mpr hdiv) hσ.symm
  omega

theorem zip_map_pair (rt : List Nat) (f : Nat × Bool → Bool) :
    ∀ mask : List Bool,
      rt.zip ((rt.zip mask).map f) = (rt.zip mask).map (fun p => (p.1, f p)) := by
  induction rt with
  | nil => intro mask; rfl
  | cons x xs ih =>
    intro mask
    cases mask with
    | nil => rfl
    | cons b bs => simp [List.zip_cons_cons, ih bs]

/-- One pass of the statistics loop never masks every active sample
when `k ≥ 1` and the 64-bit sums cannot wrap. -/
theorem statsPass_active (rt : List Nat) (mask : List Bool) (nstd : Nat)
    (hsmall : ∀ x ∈ rt, x < 2 ^ 16) (hlen : rt.length < 2 ^ 31) (hk : 1 ≤ nstd)
    (hact : 0 < ((rt.zip mask).filter (fun p => p.2)).length) :
    0 < ((rt.zip (statsPass rt mask nstd).mask).filter (fun p => p.2)).length := by
  rw [statsPass_eq_specPass rt mask nstd hsmall hlen]
  have hne : activeVals rt mask ≠ [] := by
    unfold activeVals
    intro hnil
    have hlen0 := congrArg List.length hnil
    rw [List.length_map, List.length_nil] at hlen0
    omega
  rcases exists_lowdev (activeVals rt mask) nstd hk hne with ⟨x, hx, hdev⟩
  rcases List.mem_map.mp hx with ⟨p, hpfil, hpx⟩
  have hp2 : p.2 = true := by
    have := (List.mem_filter.mp hpfil).2
    simpa using this
  have hpmem : p ∈ rt.zip mask := (List.mem_filter.mp hpfil).1
  simp only [specPass]
  rw [zip_map_pair]
  apply List.length_pos.mpr
  apply List.ne_nil_of_mem (a := (p.1,
    if p.2 then decide (intDev ((activeVals rt mask).sum / (activeVals rt mask).length) p.1
      ≤ nstd * Nat.sqrt (((activeVals rt mask).map
        (fun x => intDev ((activeVals rt mask).sum / (activeVals rt mask).length) x
          * intDev ((activeVals rt mask).sum / (activeVals rt mask).length) x)).sum
            / (activeVals rt mask).length)) else false))
  apply List.mem_filter.mpr
  constructor
  · exact List.mem_map.mpr ⟨p, hpmem, rfl⟩
  · simp only [hp2, if_true]
    rw [hpx]
    exact decide_eq_true hdev

theorem statsLoop_active (rt : List Nat) (nstd : Nat)
    (hsmall : ∀ x ∈ rt, x < 2 ^ 16) (hlen : rt.length < 2 ^ 31) (hk : 1 ≤ nstd) :
    ∀ fuel mask ns, 0 < ((rt.zip mask).filter (fun p => p.2)).length →
      0 < ((rt.zip (statsLoop rt nstd fuel mask ns).mask).filter (fun p => p.2)).length := by
  intro fuel
  induction fuel with
  | zero => intro mask ns h; exact h
  | succ fuel ih =>
    intro mask ns h
    simp only [statsLoop]
    by_cases hm : 0 < (statsPass rt mask nstd).nMsked
    · rw [if_pos hm]
      exact ih _ _ (statsPass_active rt mask nstd hsmall hlen hk h)
    · rw [if_neg hm]
      exact statsPass_active rt mask nstd hsmall hlen hk h

/-! ## Claim theorems -/

/-- C1 (code bug): the claim says `impl_ref` computes every output cell
as the IEEE-754 single-precision sum `Σ_k A[i][k]*B[k][j]`.  The code
does not: it `memcpy`s the 4-byte float patterns into `int` and
multiplies/accumulates them as 32-bit integers.  Failing input: 1×1×1
matrices `A = B = [1.0f]` (bit pattern `0x3F800000 = 1065353216`).  The
IEEE product is exactly `1.0f` (value 1, bits `0x3F800000`), but the
kernel computes `1065353216 · 1065353216 ≡ 0 (mod 2^32)` and stores bit
pattern 0, a float value of 0 — not 1, and not even the bit pattern the
claim requires. -/
theorem C1_ref_integer_arithmetic_bug :
    (impl_ref ⟨fun _ => 0x3F800000, fun _ => 0x3F800000, fun _ => 777,
        1, 1, 1, 1, 0, 1⟩).output 0 = 0
    ∧ f32val 0x3F800000 = some 1
    ∧ f32val 0 = some 0
    ∧ (0x3F800000 : Nat) ≠ 0 ∧ (1 : ℚ) ≠ 0 := by
  refine ⟨by decide, by simp [f32val, pow2], by simp [f32val, pow2], by decide, by norm_num⟩

/-- C2 (code bug): the claim says `impl_mmult_opt` and `impl_ref` agree
within 1e-5 on the same inputs.  On the 1×1×1 input `A = B = [1.0f]`
(bits `0x3F800000`, value 1), `impl_ref` produces bit pattern 0 (float
value 0, because it multiplies the bit patterns as 32-bit integers,
see C1), while `impl_mmult_opt` computes the float product, which at
these integral magnitudes is exact and equals 1.  The outputs differ by
1 > 1e-5, so the tolerance check of `main.c` line 314 fails. -/
theorem C2_ref_opt_disagree_bug :
    (impl_ref ⟨fun _ => 0x3F800000, fun _ => 0x3F800000, fun _ => 777,
        1, 1, 1, 1, 0, 1⟩).output 0 = 0
    ∧ f32val 0 = some 0
    ∧ (impl_mmult_opt ⟨fun _ => 1, fun _ => 1, fun _ => 777, 1, 1, 1, 1, 0, 1⟩).output 0 = 1
    ∧ ¬(|(0 : ℚ) - 1| ≤ 1 / 100000) := by
  refine ⟨by decide, by simp [f32val, pow2], ?_, by norm_num⟩
  have h := opt_cell_value (fun _ => (1 : ℚ)) (fun _ => 1) 1 1 1 (fun _ => 777) 0 0
    (by norm_num) (by norm_num)
  show optCompute (fun _ => (1 : ℚ)) (fun _ => 1) 1 1 1 (optInit 1 1 (fun _ => 777)) 0 = 1
  simpa using h

/-- C3 (confirmed): over exact rational arithmetic, every in-bounds
output cell of `impl_mmult_opt` equals the mathematical dot product
`Σ_{k<colsA} A[i][k]*B[k][j]` (the tile-k accumulation order composes to
exactly this sum, partial tiles included); the kernel reads only
in-bounds elements of A and B (its output is unchanged when A and B are
replaced by any functions agreeing on the in-bounds regions); and it
never writes at or past offset `rowsA*colsB` of the output. -/
theorem C3_opt_exact_functional_correctness (args : args_t ℚ) (i j : Nat)
    (hi : i < args.rowsA) (hj : j < args.colsB) :
    (impl_mmult_opt args).output (i * args.colsB + j)
        = Finset.sum (Finset.range args.colsA)
            (fun k => args.input_a (i * args.colsA + k) * args.input_b (k * args.colsB + j))
    ∧ (∀ a' b' : Nat → ℚ,
        (∀ idx, idx < args.rowsA * args.colsA → args.input_a idx = a' idx) →
        (∀ idx, idx < args.colsA * args.colsB → args.input_b idx = b' idx) →
        (impl_mmult_opt { args with input_a := a', input_b := b' }).output
          = (impl_mmult_opt args).output)
    ∧ (∀ x, args.rowsA * args.colsB ≤ x → (impl_mmult_opt args).output x = args.output x) := by
  refine ⟨?_, ?_, ?_⟩
  · exact opt_cell_value args.input_a args.input_b args.rowsA args.colsA args.colsB
      args.output i j hi hj
  · intro a' b' ha hb
    show optCompute a' b' args.rowsA args.colsA args.colsB
        (optInit args.rowsA args.colsB args.output)
      = optCompute args.input_a args.input_b args.rowsA args.colsA args.colsB
        (optInit args.rowsA args.colsB args.output)
    exact (optCompute_agree args.input_a a' args.input_b b' args.rowsA args.colsA args.colsB
      (optInit args.rowsA args.colsB args.output) ha hb).symm
  · intro x hx
    show optCompute args.input_a args.input_b args.rowsA args.colsA args.colsB
        (optInit args.rowsA args.colsB args.output) x = args.output x
    rw [optCompute_frame args.input_a args.input_b args.rowsA args.colsA args.colsB _ x hx,
      optInit_frame args.rowsA args.colsB args.output x hx]

/-- Witness for C3 at the 17×17×17 boundary scenario (partial last tile
on all three axes) with all-ones matrices, read out at the corner cell
(16, 16). -/
theorem C3_opt_exact_functional_correctness_witness :
    (16 < 17 ∧ 16 < 17)
    ∧ ((impl_mmult_opt ⟨fun _ => 1, fun _ => 1, fun _ => 0, 17, 17, 17, 289, 0, 1⟩).output
          (16 * 17 + 16)
        = Finset.sum (Finset.range 17) (fun _ => (1 : ℚ) * 1)
      ∧ (∀ a' b' : Nat → ℚ,
          (∀ idx, idx < 17 * 17 → (1 : ℚ) = a' idx) →
          (∀ idx, idx < 17 * 17 → (1 : ℚ) = b' idx) →
          (impl_mmult_opt ⟨a', b', fun _ => 0, 17, 17, 17, 289, 0, 1⟩).output
            = (impl_mmult_opt ⟨fun _ => 1, fun _ => 1, fun _ => 0, 17, 17, 17, 289, 0, 1⟩).output)
      ∧ (∀ x, 17 * 17 ≤ x →
          (impl_mmult_opt ⟨fun _ => 1, fun _ => 1, fun _ => 0, 17, 17, 17, 289, 0, 1⟩).output x
            = 0)) :=
  ⟨⟨by norm_num, by norm_num⟩,
    C3_opt_exact_functional_correctness
      ⟨fun _ => 1, fun _ => 1, fun _ => 0, 17, 17, 17, 289, 0, 1⟩ 16 16
      (by norm_num) (by norm_num)⟩

/-- C10 (confirmed): both kernels leave the input matrices unchanged
(the embedded kernels store only through the `output` field, mirroring
the C code, whose only stores go through `dest`), and neither writes any
output offset at or beyond `rowsA*colsB` — in particular the guard
cells are never written. -/
theorem C10_kernel_frame_effects (argsN : args_t Nat) (argsQ : args_t ℚ) (x y : Nat)
    (hx : argsN.rowsA * argsN.colsB ≤ x) (hy : argsQ.rowsA * argsQ.colsB ≤ y) :
    ((impl_ref argsN).input_a = argsN.input_a
      ∧ (impl_ref argsN).input_b = argsN.input_b
      ∧ (impl_ref argsN).output x = argsN.output x)
    ∧ ((impl_mmult_opt argsQ).input_a = argsQ.input_a
      ∧ (impl_mmult_opt argsQ).input_b = argsQ.input_b
      ∧ (impl_mmult_opt argsQ).output y = argsQ.output y) := by
  refine ⟨⟨rfl, rfl, ?_⟩, ⟨rfl, rfl, ?_⟩⟩
  · exact refDest_frame argsN.input_a argsN.input_b argsN.rowsA argsN.colsA argsN.colsB
      argsN.output x hx
  · show optCompute argsQ.input_a argsQ.input_b argsQ.rowsA argsQ.colsA argsQ.colsB
        (optInit argsQ.rowsA argsQ.colsB argsQ.output) y = argsQ.output y
    rw [optCompute_frame argsQ.input_a argsQ.input_b argsQ.rowsA argsQ.colsA argsQ.colsB _ y hy,
      optInit_frame argsQ.rowsA argsQ.colsB argsQ.output y hy]

/-- Witness for C10 on 1×1×1 kernels, read out at offset 1 (the first
offset past the logical output). -/
theorem C10_kernel_frame_effects_witness :
    (1 * 1 ≤ 1 ∧ 1 * 1 ≤ 1)
    ∧ (((impl_ref ⟨fun _ => 7, fun _ => 8, fun _ => 9, 1, 1, 1, 1, 0, 1⟩).input_a
          = (fun _ => 7)
        ∧ (impl_ref ⟨fun _ => 7, fun _ => 8, fun _ => 9, 1, 1, 1, 1, 0, 1⟩).input_b
          = (fun _ => 8)
        ∧ (impl_ref ⟨fun _ => 7, fun _ => 8, fun _ => 9, 1, 1, 1, 1, 0, 1⟩).output 1 = 9)
      ∧ ((impl_mmult_opt ⟨fun _ => 2, fun _ => 3, fun _ => 4, 1, 1, 1, 1, 0, 1⟩).input_a
          = (fun _ => 2)
        ∧ (impl_mmult_opt ⟨fun _ => 2, fun _ => 3, fun _ => 4, 1, 1, 1, 1, 0, 1⟩).input_b
          = (fun _ => 3)
        ∧ (impl_mmult_opt ⟨fun _ => 2, fun _ => 3, fun _ => 4, 1, 1, 1, 1, 0, 1⟩).output 1
          = 4)) :=
  ⟨⟨by norm_num, by norm_num⟩,
    C10_kernel_frame_effects ⟨fun _ => 7, fun _ => 8, fun _ => 9, 1, 1, 1, 1, 0, 1⟩
      ⟨fun _ => 2, fun _ => 3, fun _ => 4, 1, 1, 1, 1, 0, 1⟩ 1 1 (by norm_num) (by norm_num)⟩

/-- C6 counterexample: `impl_ref` does NOT "initialize the full output
region to 0.0 before accumulation".  On the 1×1×1 input with bit
patterns `A = [3]`, `B = [2]`, the kernel's complete store trace is the
single store `(offset 0, value 6)`: no store of 0 is ever made to the
output region, so there is no zero-initialization phase (the last
conjunct confirms the trace is a faithful replay of `impl_ref`'s
stores). -/
theorem C6_counterexample_ref_has_no_zero_init :
    refWriteTrace (fun _ => 3) (fun _ => 2) 1 1 1 = [(0, 6)]
    ∧ (∀ e ∈ refWriteTrace (fun _ => 3) (fun _ => 2) 1 1 1, e.2 ≠ 0)
    ∧ refDest (fun _ => 3) (fun _ => 2) 1 1 1 (fun _ => 5)
        = (refWriteTrace (fun _ => 3) (fun _ => 2) 1 1 1).foldl
            (fun d e => wr d e.1 e.2) (fun _ => 5) := by
  exact ⟨by decide, by decide, refDest_eq_trace (fun _ => 3) (fun _ => 2) 1 1 1 (fun _ => 5)⟩

/-- C6 (corrected): `impl_mmult_opt` zero-initializes the full output
region before accumulating; `impl_ref` has no zero-initialization phase
(see the counterexample) but overwrites each output cell exactly once
with its fully accumulated sum; in both kernels every in-bounds output
cell's final value is independent of the output buffer's initial
contents, so neither kernel relies on caller pre-zeroing. -/
theorem C6_amended_output_independent_of_initial (argsQ : args_t ℚ) (argsN : args_t Nat)
    (d' : Nat → ℚ) (dN' : Nat → Nat) (i j i' j' : Nat)
    (hi : i < argsQ.rowsA) (hj : j < argsQ.colsB)
    (hi' : i' < argsN.rowsA) (hj' : j' < argsN.colsB) :
    optInit argsQ.rowsA argsQ.colsB argsQ.output (i * argsQ.colsB + j) = 0
    ∧ (impl_mmult_opt argsQ).output (i * argsQ.colsB + j)
        = (impl_mmult_opt { argsQ with output := d' }).output (i * argsQ.colsB + j)
    ∧ (impl_ref argsN).output (i' * argsN.colsB + j')
        = (impl_ref { argsN with output := dN' }).output (i' * argsN.colsB + j') := by
  refine ⟨optInit_read argsQ.rowsA argsQ.colsB argsQ.output i j hi hj, ?_, ?_⟩
  · show optCompute argsQ.input_a argsQ.input_b argsQ.rowsA argsQ.colsA argsQ.colsB
        (optInit argsQ.rowsA argsQ.colsB argsQ.output) (i * argsQ.colsB + j)
      = optCompute argsQ.input_a argsQ.input_b argsQ.rowsA argsQ.colsA argsQ.colsB
        (optInit argsQ.rowsA argsQ.colsB d') (i * argsQ.colsB + j)
    rw [opt_cell_value argsQ.input_a argsQ.input_b argsQ.rowsA argsQ.colsA argsQ.colsB
        argsQ.output i j hi hj,
      opt_cell_value argsQ.input_a argsQ.input_b argsQ.rowsA argsQ.colsA argsQ.colsB
        d' i j hi hj]
  · show refDest argsN.input_a argsN.input_b argsN.rowsA argsN.colsA argsN.colsB
        argsN.output (i' * argsN.colsB + j')
      = refDest argsN.input_a argsN.input_b argsN.rowsA argsN.colsA argsN.colsB
        dN' (i' * argsN.colsB + j')
    rw [refDest_read argsN.input_a argsN.input_b argsN.rowsA argsN.colsA argsN.colsB
        argsN.output i' j' hi' hj',
      refDest_read argsN.input_a argsN.input_b argsN.rowsA argsN.colsA argsN.colsB
        dN' i' j' hi' hj']

/-- Witness for the amended C6 on 1×1×1 kernels with two different
initial output buffers. -/
theorem C6_amended_output_independent_of_initial_witness :
    (0 < 1 ∧ 0 < 1 ∧ 0 < 1 ∧ 0 < 1)
    ∧ (optInit 1 1 (fun _ => 42) (0 * 1 + 0) = 0
      ∧ (impl_mmult_opt ⟨fun _ => 2, fun _ => 3, fun _ => 42, 1, 1, 1, 1, 0, 1⟩).output
            (0 * 1 + 0)
          = (impl_mmult_opt ⟨fun _ => 2, fun _ => 3, fun _ => 55, 1, 1, 1, 1, 0, 1⟩).output
            (0 * 1 + 0)
      ∧ (impl_ref ⟨fun _ => 3, fun _ => 2, fun _ => 42, 1, 1, 1, 1, 0, 1⟩).output
            (0 * 1 + 0)
          = (impl_ref ⟨fun _ => 3, fun _ => 2, fun _ => 55, 1, 1, 1, 1, 0, 1⟩).output
            (0 * 1 + 0)) :=
  ⟨⟨by norm_num, by norm_num, by norm_num, by norm_num⟩,
    C6_amended_output_independent_of_initial
      ⟨fun _ => 2, fun _ => 3, fun _ => 42, 1, 1, 1, 1, 0, 1⟩
      ⟨fun _ => 3, fun _ => 2, fun _ => 42, 1, 1, 1, 1, 0, 1⟩
      (fun _ => 55) (fun _ => 55) 0 0 0 0
      (by norm_num) (by norm_num) (by norm_num) (by norm_num)⟩

/-- C7 (confirmed, with the guard macros of `common/macros.h` modelled
from the spec since that header is not under `src/`): after either
kernel runs on a well-formed argument struct whose output buffer had the
4 guard cells at offsets `rowsA*colsB .. rowsA*colsB+3` set to the
sentinel, every guard cell still holds the sentinel bit-identically;
`checkFloatGuard` returns true on the post-run buffer, and it returns
true only if every guard cell equals the sentinel; and the verification
report of `main.c` lines 316-324 encodes `match` and `guard`
independently (the four messages are pairwise distinct, so the printed
message determines both booleans). -/
theorem C7_guard_cells_invariant (argsN : args_t Nat) (argsQ : args_t ℚ) (sQ : ℚ)
    (t : Nat) (ht : t < 4) :
    (impl_ref { argsN with output := (setFloatGuard guardSentinel argsN.output
        (argsN.rowsA * argsN.colsB)) }).output (argsN.rowsA * argsN.colsB + t)
      = guardSentinel
    ∧ checkFloatGuard guardSentinel
        (impl_ref { argsN with output := (setFloatGuard guardSentinel argsN.output
          (argsN.rowsA * argsN.colsB)) }).output (argsN.rowsA * argsN.colsB) = true
    ∧ (impl_mmult_opt { argsQ with output := (setFloatGuard sQ argsQ.output
        (argsQ.rowsA * argsQ.colsB)) }).output (argsQ.rowsA * argsQ.colsB + t) = sQ
    ∧ checkFloatGuard sQ
        (impl_mmult_opt { argsQ with output := (setFloatGuard sQ argsQ.output
          (argsQ.rowsA * argsQ.colsB)) }).output (argsQ.rowsA * argsQ.colsB) = true
    ∧ (∀ (buf : Nat → Nat) (size : Nat), checkFloatGuard guardSentinel buf size = true →
        ∀ u, u < 4 → buf (size + u) = guardSentinel)
    ∧ (∀ m g m' g', verifyMessage m g = verifyMessage m' g' → m = m' ∧ g = g') := by
  have hrefguard : ∀ u, u < 4 →
      (impl_ref { argsN with output := (setFloatGuard guardSentinel argsN.output
        (argsN.rowsA * argsN.colsB)) }).output (argsN.rowsA * argsN.colsB + u)
      = guardSentinel := by
    intro u _
    show refDest argsN.input_a argsN.input_b argsN.rowsA argsN.colsA argsN.colsB
        (setFloatGuard guardSentinel argsN.output (argsN.rowsA * argsN.colsB))
        (argsN.rowsA * argsN.colsB + u) = guardSentinel
    rw [refDest_frame argsN.input_a argsN.input_b argsN.rowsA argsN.colsA argsN.colsB _ _
      (by omega)]
    unfold setFloatGuard
    rw [if_pos ⟨by omega, by omega⟩]
  have hoptguard : ∀ u, u < 4 →
      (impl_mmult_opt { argsQ with output := (setFloatGuard sQ argsQ.output
        (argsQ.rowsA * argsQ.colsB)) }).output (argsQ.rowsA * argsQ.colsB + u) = sQ := by
    intro u _
    show optCompute argsQ.input_a argsQ.input_b argsQ.rowsA argsQ.colsA argsQ.colsB
        (optInit argsQ.rowsA argsQ.colsB
          (setFloatGuard sQ argsQ.output (argsQ.rowsA * argsQ.colsB)))
        (argsQ.rowsA * argsQ.colsB + u) = sQ
    rw [optCompute_frame argsQ.input_a argsQ.input_b argsQ.rowsA argsQ.colsA argsQ.colsB _ _
        (by omega),
      optInit_frame argsQ.rowsA argsQ.colsB _ _ (by omega)]
    unfold setFloatGuard
    rw [if_pos ⟨by omega, by omega⟩]
  refine ⟨hrefguard t ht, ?_, hoptguard t ht, ?_, ?_, by decide⟩
  · simp only [checkFloatGuard, List.all_eq_true, decide_eq_true_eq]
    intro u hu
    exact hrefguard u (List.mem_range.mp hu)
  · simp only [checkFloatGuard, List.all_eq_true, decide_eq_true_eq]
    intro u hu
    exact hoptguard u (List.mem_range.mp hu)
  · intro buf size hchk u hu
    simp only [checkFloatGuard, List.all_eq_true, decide_eq_true_eq] at hchk
    exact hchk u (List.mem_range.mpr hu)

/-- Witness for C7 on 1×1×1 kernels and guard cell index 2. -/
theorem C7_guard_cells_invariant_witness :
    2 < 4
    ∧ ((impl_ref { (⟨fun _ => 3, fun _ => 2, fun _ => 9, 1, 1, 1, 1, 0, 1⟩ : args_t Nat) with
          output := setFloatGuard guardSentinel (fun _ => 9) (1 * 1) }).output (1 * 1 + 2)
        = guardSentinel
      ∧ checkFloatGuard guardSentinel
          (impl_ref { (⟨fun _ => 3, fun _ => 2, fun _ => 9, 1, 1, 1, 1, 0, 1⟩ : args_t Nat) with
            output := setFloatGuard guardSentinel (fun _ => 9) (1 * 1) }).output (1 * 1) = true
      ∧ (impl_mmult_opt { (⟨fun _ => 2, fun _ => 3, fun _ => 9, 1, 1, 1, 1, 0, 1⟩ : args_t ℚ) with
          output := setFloatGuard 5 (fun _ => 9) (1 * 1) }).output (1 * 1 + 2) = 5
      ∧ checkFloatGuard 5
          (impl_mmult_opt { (⟨fun _ => 2, fun _ => 3, fun _ => 9, 1, 1, 1, 1, 0, 1⟩ : args_t ℚ) with
            output := setFloatGuard 5 (fun _ => 9) (1 * 1) }).output (1 * 1) = true
      ∧ (∀ (buf : Nat → Nat) (size : Nat), checkFloatGuard guardSentinel buf size = true →
          ∀ u, u < 4 → buf (size + u) = guardSentinel)
      ∧ (∀ m g m' g', verifyMessage m g = verifyMessage m' g' → m = m' ∧ g = g')) :=
  ⟨by norm_num,
    C7_guard_cells_invariant ⟨fun _ => 3, fun _ => 2, fun _ => 9, 1, 1, 1, 1, 0, 1⟩
      ⟨fun _ => 2, fun _ => 3, fun _ => 9, 1, 1, 1, 1, 0, 1⟩ 5 2 (by norm_num)⟩

/-- C4 counterexample: the statistics loop does NOT compute the
real-arithmetic mean and standard deviation the claim describes.  On
samples `{1, 2}` with `k = 3`: the claim's procedure (`outlierRat`, the
exact-rational reading of the claimed algorithm) has `μ = 3/2`,
`σ = 1/2`, masks nothing, finishes in one pass and reports `3/2`; the
code (`outlierStats`) truncates `μ = ⌊3/2⌋ = 1` and
`σ = ⌊√⌊1/2⌋⌋ = 0`, so the sample `2` deviates by `1 > 3·0`, gets
masked, and the code reports average `1` over `{1}` after two passes. -/
theorem C4_counterexample_integer_truncation :
    (outlierStats [1, 2] 3).mask = [true, false]
    ∧ (outlierStats [1, 2] 3).avg = 1
    ∧ (outlierStats [1, 2] 3).nStats = 2
    ∧ (outlierRat [1, 2] 3).mask = [true, true]
    ∧ (outlierRat [1, 2] 3).nStats = 1
    ∧ (outlierRat [1, 2] 3).avg = 3 / 2
    ∧ ((1 : ℚ) ≠ 3 / 2) := by
  refine ⟨by decide, by decide, by decide, by decide, by decide, ?_, by norm_num⟩
  have h : (outlierRat [1, 2] 3).avg = ratMean [1, 2] := rfl
  rw [h]
  simp [ratMean]
  norm_num

/-- C4 (corrected): whenever the samples are small enough that no
64-bit sum wraps (e.g. every sample below 2^16 and fewer than 2^31
samples), the statistics loop computes, per pass over the active
samples, the floor mean `μ = ⌊Σx/n⌋` and the truncated population
standard deviation `σ = ⌊√⌊Σ|x-μ|²/n⌋⌋` (integer division throughout),
masks every active sample whose absolute deviation from `μ` strictly
exceeds `k·σ`, and repeats until a pass masks no new sample
(`outlierStats = outlierSpec`, where `outlierSpec` is that description
written with exact sums and absolute values); the final state is a
fixed point (running one more pass masks nothing); and the reported
average is the floor mean over the samples still active. -/
theorem C4_amended_integer_statistics (rt : List Nat) (nstd : Nat)
    (hsmall : ∀ x ∈ rt, x < 2 ^ 16) (hlen : rt.length < 2 ^ 31) :
    outlierStats rt nstd = outlierSpec rt nstd
    ∧ (statsPass rt (outlierStats rt nstd).mask nstd).nMsked = 0
    ∧ (outlierStats rt nstd).avg
        = (activeVals rt (outlierStats rt nstd).mask).sum
          / (activeVals rt (outlierStats rt nstd).mask).length := by
  have hcount : (List.replicate rt.length true).count true < rt.length + 1 := by
    have := List.count_le_length (a := true) (l := List.replicate rt.length true)
    rw [List.length_replicate] at this
    omega
  have hfix := statsLoop_fix rt nstd (rt.length + 1) (List.replicate rt.length true) 0
    (by simp) hcount
  refine ⟨outlierStats_eq_outlierSpec rt nstd hsmall hlen, hfix.1, ?_⟩
  show (statsLoop rt nstd (rt.length + 1) (List.replicate rt.length true) 0).avg = _
  rw [hfix.2.2.1, statsPass_eq_specPass rt _ nstd hsmall hlen]
  rfl

/-- Witness for the amended C4 on the samples `[3, 5]` with `k = 2`. -/
theorem C4_amended_integer_statistics_witness :
    ((∀ x ∈ [3, 5], x < 2 ^ 16) ∧ [3, 5].length < 2 ^ 31)
    ∧ (outlierStats [3, 5] 2 = outlierSpec [3, 5] 2
      ∧ (statsPass [3, 5] (outlierStats [3, 5] 2).mask 2).nMsked = 0
      ∧ (outlierStats [3, 5] 2).avg
          = (activeVals [3, 5] (outlierStats [3, 5] 2).mask).sum
            / (activeVals [3, 5] (outlierStats [3, 5] 2).mask).length) :=
  ⟨⟨by decide, by decide⟩, C4_amended_integer_statistics [3, 5] 2 (by decide) (by decide)⟩

/-- C5 counterexample: the rejection loop CAN mask every active sample,
so the next pass's divisions by the active count are divisions by zero.
With multiplier `k = 0` and samples `{0, 3}` (`μ = 1`, `σ = 1`), both
samples deviate by more than `0·σ = 0` and both are masked; the loop
repeats (`n_msked = 2 > 0`) and the next pass has `avg_n = 0`.  With the
default `k = 3` and samples `{0, 0, 3·2^32}` the squared deviations
`2^64` and `2^66` wrap to 0 in `uint64_t`, giving `σ = 0`, and again
every sample is masked. -/
theorem C5_counterexample_all_masked :
    (statsPass [0, 3] [true, true] 0).mask = [false, false]
    ∧ (statsPass [0, 3] [true, true] 0).nMsked = 2
    ∧ (statsPass [0, 3] (statsPass [0, 3] [true, true] 0).mask 0).avgN = 0
    ∧ (statsPass [0, 0, 12884901888] [true, true, true] 3).mask = [false, false, false]
    ∧ (statsPass [0, 0, 12884901888] [true, true, true] 3).nMsked = 3 := by
  exact ⟨by decide, by decide, by decide, by decide, by decide⟩

/-- C5 (corrected): when the rejection multiplier is at least 1 and the
samples are small enough that no 64-bit sum wraps (e.g. below 2^16 with
fewer than 2^31 samples), a pass that starts with at least one active
sample ends with at least one active sample — a sample of least
deviation always survives, because `σ` is at least the least deviation —
and consequently, for a nonempty run set, the active count used as
divisor in the final pass of the whole loop is positive. -/
theorem C5_amended_one_sample_survives (rt : List Nat) (mask : List Bool) (nstd : Nat)
    (hsmall : ∀ x ∈ rt, x < 2 ^ 16) (hlen : rt.length < 2 ^ 31) (hk : 1 ≤ nstd)
    (hact : 0 < ((rt.zip mask).filter (fun p => p.2)).length) :
    0 < ((rt.zip (statsPass rt mask nstd).mask).filter (fun p => p.2)).length
    ∧ (rt ≠ [] → 0 < (outlierStats rt nstd).avgN) := by
  refine ⟨statsPass_active rt mask nstd hsmall hlen hk hact, ?_⟩
  intro hne
  have hcount : (List.replicate rt.length true).count true < rt.length + 1 := by
    have := List.count_le_length (a := true) (l := List.replicate rt.length true)
    rw [List.length_replicate] at this
    omega
  have hfix := statsLoop_fix rt nstd (rt.length + 1) (List.replicate rt.length true) 0
    (by simp) hcount
  have hinit : 0 < ((rt.zip (List.replicate rt.length true)).filter (fun p => p.2)).length := by
    have hall : (rt.zip (List.replicate rt.length true)).filter (fun p => p.2)
        = rt.zip (List.replicate rt.length true) := by
      apply List.filter_eq_self.mpr
      intro p hp
      have := (List.of_mem_zip hp).2
      have := List.eq_of_mem_replicate this
      simp [this]
    rw [hall, List.length_zip, List.length_replicate]
    have : 0 < rt.length := List.length_pos.mpr hne
    omega
  have hactive := statsLoop_active rt nstd hsmall hlen hk (rt.length + 1)
    (List.replicate rt.length true) 0 hinit
  show 0 < (statsLoop rt nstd (rt.length + 1) (List.replicate rt.length true) 0).avgN
  rw [hfix.2.2.2]
  show 0 < ((rt.zip (statsLoop rt nstd (rt.length + 1)
    (List.replicate rt.length true) 0).mask).filter (fun p => p.2)).length
  exact hactive

/-- Witness for the amended C5 on samples `[10, 12]`, all active,
`k = 3`. -/
theorem C5_amended_one_sample_survives_witness :
    ((∀ x ∈ [10, 12], x < 2 ^ 16) ∧ [10, 12].length < 2 ^ 31 ∧ 1 ≤ 3
      ∧ 0 < (([10, 12].zip [true, true]).filter (fun p => p.2)).length)
    ∧ (0 < (([10, 12].zip (statsPass [10, 12] [true, true] 3).mask).filter
          (fun p => p.2)).length
      ∧ ([10, 12] ≠ [] → 0 < (outlierStats [10, 12] 3).avgN)) :=
  ⟨⟨by decide, by decide, by decide, by decide⟩,
    C5_amended_one_sample_survives [10, 12] [true, true] 3
      (by decide) (by decide) (by decide) (by decide)⟩

/-- C8 (confirmed): on the sample sequence `{100, 101, 99, 102, 100, 9}`
with `k = 2`, the first pass has `μ = ⌊511/6⌋ = 85`,
`σ = ⌊√⌊6967/6⌋⌋ = 34`, and masks exactly the extreme sample `9`
(deviation 76 > 68); the second pass over the remaining five has
`μ = ⌊502/5⌋ = 100`, `σ = 1`, masks nothing, and the loop stops.  The
final state masks exactly the sample `9`, and the reported average 100
is the (floor) mean over the remaining five samples. -/
theorem C8_extreme_sample_rejection :
    outlierStats [100, 101, 99, 102, 100, 9] 2
      = ⟨[true, true, true, true, true, false], 100, 5, 1, 2⟩
    ∧ (outlierStats [100, 101, 99, 102, 100, 9] 2).avg
        = (activeVals [100, 101, 99, 102, 100, 9] [true, true, true, true, true, false]).sum
          / (activeVals [100, 101, 99, 102, 100, 9]
              [true, true, true, true, true, false]).length := by
  constructor
  · set_option maxRecDepth 40000 in decide
  · set_option maxRecDepth 40000 in decide

/-- C9 counterexample: with argument vector `-i bogus -h` the selected
implementation name is unknown, yet the program prints no error and
exits with status 0 (the help path), not the nonzero status the claim
requires for every invocation with an unknown kernel name.  (No kernel
runs in this case either.) -/
theorem C9_counterexample_help_exits_zero :
    mainOutcome ["-i", "bogus", "-h"] = Outcome.exited 0 none := by
  decide

/-- C9 (corrected): when the selected implementation name is neither
"naive" nor "opt" and help is not requested, the program prints the
error message and exits with status 1 before any kernel invocation;
when `-h` is also passed it prints usage and exits 0 — in either case,
whenever parsing ends with no kernel selected, the outcome is never a
kernel run. -/
theorem C9_amended_unknown_impl_rejected (name : String)
    (h1 : name ≠ "naive") (h2 : name ≠ "opt") :
    mainOutcome ["-i", name]
        = Outcome.exited 1 (some "ERROR: Unknown \"unknown\" implementation.")
    ∧ mainOutcome ["-i", name, "-h"] = Outcome.exited 0 none
    ∧ (∀ argv c, parseArgs argv initialConfig = some c → c.impl = none →
        ∀ k s, mainOutcome argv ≠ Outcome.ran k s) := by
  refine ⟨?_, ?_, ?_⟩
  · simp [mainOutcome, parseArgs, initialConfig, h1, h2]
  · simp [mainOutcome, parseArgs, initialConfig, h1, h2]
  · intro argv c hparse himpl k s
    unfold mainOutcome
    rw [hparse]
    simp [himpl]

/-- Witness for the amended C9 with the unknown name "fast". -/
theorem C9_amended_unknown_impl_rejected_witness :
    ("fast" ≠ "naive" ∧ "fast" ≠ "opt")
    ∧ (mainOutcome ["-i", "fast"]
          = Outcome.exited 1 (some "ERROR: Unknown \"unknown\" implementation.")
      ∧ mainOutcome ["-i", "fast", "-h"] = Outcome.exited 0 none
      ∧ (∀ argv c, parseArgs argv initialConfig = some c → c.impl = none →
          ∀ k s, mainOutcome argv ≠ Outcome.ran k s)) :=
  ⟨⟨by decide, by decide⟩,
    C9_amended_unknown_impl_rejected "fast" (by decide) (by decide)⟩
